import Mathlib

/-
Verification development for the TSP heuristic engine of this repository:
`solve.py` (cheapest insertion + 2-opt) and `solves3.py` (cheapest insertion +
3-opt).  Both programs consume only the precomputed pairwise distance matrix,
so the engine is embedded parametrically over an arbitrary linearly ordered
field `α` and a matrix `d : ℕ → ℕ → α`; the Euclidean matrix built from the
input points (lines 22-26 of both files, floating point idealised as ℝ) is
characterised by the predicate `EuclidOf` below, and instantiating `α := ℚ`
keeps every definition executable for concrete evaluation.

Modelling notes, verified against the source line by line:
* Python iterates `set` objects of small non-negative ints; for the sizes at
  hand CPython enumerates them in increasing order, and the spec (§4.3, §9)
  mandates exactly this deterministic ascending tie-break; sets of indices are
  therefore embedded as increasing lists.
* In `solve.py`, for N = 1 the nearest-neighbour fold leaves `float('inf')`,
  giving threshold `inf` and an empty isolated set; the embedding uses an
  `Option` fold (`none` plays `inf`) and a default of `0` for the surviving
  value, which yields the same (empty) isolated set, because `inf > inf` and
  `0 > 0` are both false.
* `solves3.py` line 67 has `improved = True` dedented to column 0 (as written
  the file does not even parse); the evident intent — the flag initialisation
  of the `while` loop that immediately follows, exactly as in `solve.py`
  line 96 — is embedded.
* The unbounded `while improved:` loops are embedded with an explicit sweep
  counter (`twoOptIter`, `threeOptIter`).  For the 2-opt loop, `N!` sweeps are
  proven sufficient (`solve2_sweep_fix` below), so `solve2` runs with that
  budget; for the 3-opt loop of `solves3.py` no bound exists — the loop can
  provably cycle forever, even on a planar input (see
  `C8_threeOpt_never_terminates`) — so `solve3` keeps the
  budget as an explicit argument.
-/

namespace TSP

/-- Squared Euclidean distance between input points `i` and `j` (the argument
of the square root in `distance`, lines 7-9 of both files).  Out-of-range
indices read the default point `(0,0)` of `List.getD`; the programs only ever
query indices below the city count. -/
def sqDist (cities : List (ℝ × ℝ)) (i j : ℕ) : ℝ :=
  ((cities.getD i (0, 0)).1 - (cities.getD j (0, 0)).1) ^ 2 +
    ((cities.getD i (0, 0)).2 - (cities.getD j (0, 0)).2) ^ 2

/-- The matrix `d` is the Euclidean distance matrix that lines 22-26 of both
files precompute from the input points: entry `(i,j)` is
`sqrt((xi-xj)^2 + (yi-yj)^2)`. -/
def EuclidOf (cities : List (ℝ × ℝ)) (d : ℕ → ℕ → ℝ) : Prop :=
  ∀ i j, d i j = Real.sqrt (sqDist cities i j)

section ClassifierDefs

variable {α : Type} [LinearOrderedCommRing α]

/-! ## Isolation classifier

`solve.py` lines 30-43 and `solves3.py` lines 29-32.  The running-minimum
computations need only the order and the ring; the threshold (which divides
by `N`) follows in the next section over a field. -/

/-- The inner fold of `solve.py` lines 32-35: running minimum over
`j ∈ range N`, skipping `j = i`, seeded with `float('inf')` (embedded as
`none`). -/
def nearestOpt (d : ℕ → ℕ → α) (N i : ℕ) : Option α :=
  (List.range N).foldl
    (fun acc j => if i = j then acc else
      match acc with
      | none => some (d i j)
      | some m => some (min m (d i j)))
    none

/-- The nearest-neighbour distance of point `i` as stored in `nearest_dists`
(`solve.py` line 36).  For `N ≤ 1` the fold is empty and the surviving
`inf` is replaced by `0`, which classifies identically (see header note). -/
def nearestDist (d : ℕ → ℕ → α) (N i : ℕ) : α :=
  (nearestOpt d N i).getD 0

/-- `nearest_dists` entry of `solves3.py` line 29:
`min(dist_matrix[i][j] for j in range(N) if i != j) if N > 1 else 0`. -/
def nearestDist3 (d : ℕ → ℕ → α) (N i : ℕ) : α :=
  if N ≤ 1 then 0 else
    match ((List.range N).filter (fun j => !decide (i = j))).map (d i) with
    | [] => 0
    | x :: xs => xs.foldl min x

end ClassifierDefs

section ThresholdDefs

variable {α : Type} [LinearOrderedField α]

/-- `avg_nearest_dist` of `solve.py` line 39: `sum(nearest_dists)/N if N > 0 else 0`. -/
def avgNearest2 (d : ℕ → ℕ → α) (N : ℕ) : α :=
  if N = 0 then 0 else ((List.range N).map (nearestDist d N)).sum / (N : α)

/-- `isolation_threshold` of `solve.py` line 41: `avg * 1.5`. -/
def isolationThreshold2 (d : ℕ → ℕ → α) (N : ℕ) : α :=
  avgNearest2 d N * (3 / 2)

/-- `isolated_indices` of `solve.py` line 43 (`d > threshold`), as the
increasing list of its members. -/
def isolatedIndices2 (d : ℕ → ℕ → α) (N : ℕ) : List ℕ :=
  (List.range N).filter (fun i => decide (isolationThreshold2 d N < nearestDist d N i))

/-- `remaining_indices_for_hull` of `solve.py` line 46:
`set(range(N)) - isolated_indices`, ascending. -/
def remainingIndices2 (d : ℕ → ℕ → α) (N : ℕ) : List ℕ :=
  (List.range N).filter (fun i => !decide (isolationThreshold2 d N < nearestDist d N i))

/-- `avg_nearest_dist` of `solves3.py` line 30. -/
def avgNearest3 (d : ℕ → ℕ → α) (N : ℕ) : α :=
  if N = 0 then 0 else ((List.range N).map (nearestDist3 d N)).sum / (N : α)

/-- `isolation_threshold` of `solves3.py` line 31. -/
def isolationThreshold3 (d : ℕ → ℕ → α) (N : ℕ) : α :=
  avgNearest3 d N * (3 / 2)

/-- `isolated_indices` of `solves3.py` line 32, ascending. -/
def isolatedIndices3 (d : ℕ → ℕ → α) (N : ℕ) : List ℕ :=
  (List.range N).filter (fun i => decide (isolationThreshold3 d N < nearestDist3 d N i))

/-- `remaining_indices` of `solves3.py` line 33, ascending. -/
def remainingIndices3 (d : ℕ → ℕ → α) (N : ℕ) : List ℕ :=
  (List.range N).filter (fun i => !decide (isolationThreshold3 d N < nearestDist3 d N i))

end ThresholdDefs

section EngineDefs

variable {α : Type} [LinearOrderedCommRing α]

/-! ## Cheapest insertion

`solve.py` lines 59-93, `solves3.py` lines 44-63: both files run the identical
scan `for point_idx in unvisited: for i in range(len(tour)): ...` with a
strict `<` update, then `tour.insert(best_edge_idx + 1, best_point)`. -/

/-- Insertion cost of candidate `p` at edge position `i` of `tour`
(`solve.py` lines 66-67): `d[u][p] + d[p][v] - d[u][v]` with `u = tour[i]`,
`v = tour[(i+1) % len(tour)]`. -/
def insCost (d : ℕ → ℕ → α) (tour : List ℕ) (p i : ℕ) : α :=
  d (tour.getD i 0) p + d p (tour.getD ((i + 1) % tour.length) 0) -
    d (tour.getD i 0) (tour.getD ((i + 1) % tour.length) 0)

/-- One comparison of the insertion scan: keep the incumbent unless the new
cost is strictly smaller (`cost < best_insertion_cost`); `none` plays the
`float('inf')` sentinel state `(-1, -1)`. -/
def updBest (d : ℕ → ℕ → α) (tour : List ℕ) (p : ℕ) (st : Option (α × ℕ × ℕ))
    (i : ℕ) : Option (α × ℕ × ℕ) :=
  let c := insCost d tour p i
  match st with
  | none => some (c, p, i)
  | some (b, bp, bi) => if c < b then some (c, p, i) else some (b, bp, bi)

/-- The full scan over all candidates and all edge positions, candidates in
increasing order. -/
def bestIns (d : ℕ → ℕ → α) (tour : List ℕ) (cands : List ℕ) :
    Option (α × ℕ × ℕ) :=
  cands.foldl (fun st p => (List.range tour.length).foldl (updBest d tour p) st) none

/-- Python `list.insert n a`: insert before position `n`, clamping to the end
when `n` exceeds the length. -/
def insertAt (n a : ℕ) (l : List ℕ) : List ℕ :=
  l.take n ++ a :: l.drop n

/-- The `while unvisited:` insertion loop; the fuel argument is run with the
exact number of candidates, one removal per pass, mirroring the shrinking
Python set.  The `none` fallback is unreachable for a non-empty tour (theorem
`C10_sentinels_never_survive`); reaching it in Python would raise `KeyError`
on `unvisited.remove(-1)`. -/
def insertLoop (d : ℕ → ℕ → α) : ℕ → List ℕ → List ℕ → List ℕ
  | 0, tour, _ => tour
  | f + 1, tour, cands =>
    if cands.isEmpty then tour else
      match bestIns d tour cands with
      | none => tour
      | some (_, p, i) => insertLoop d f (insertAt (i + 1) p tour) (cands.erase p)

/-- The tour-building part of `solve.py` lines 45-93, as a function of the
classifier output: if fewer than two core indices remain the tour is the
identity order (line 50); otherwise seed with the first core index, insert
the remaining core indices, then the isolated ones. -/
def buildTour2 (d : ℕ → ℕ → α) (core iso : List ℕ) (N : ℕ) : List ℕ :=
  match core with
  | c :: c2 :: rest =>
      insertLoop d iso.length (insertLoop d (c2 :: rest).length [c] (c2 :: rest)) iso
  | _ => List.range N

/-- The tour-building part of `solves3.py` lines 40-63 (the `[]` case only
arises for `N = 0`). -/
def buildTour3 (d : ℕ → ℕ → α) (core iso : List ℕ) : List ℕ :=
  match core with
  | [] => []
  | c :: rest => insertLoop d iso.length (insertLoop d rest.length [c] rest) iso

/-! ## 2-opt refinement (`solve.py` lines 96-113) -/

/-- The scan order of the double loop `for i in range(N-1): for j in
range(i+2, N):`. -/
def pairsTwo (N : ℕ) : List (ℕ × ℕ) :=
  (List.range (N - 1)).flatMap
    (fun i => (List.range' (i + 2) (N - (i + 2))).map (fun j => (i, j)))

/-- Cost of the two current edges `(tour[i],tour[i+1])`, `(tour[j],tour[j+1])`
(`solve.py` line 106), indices taken mod `N` as in lines 102-103. -/
def curPair (d : ℕ → ℕ → α) (N : ℕ) (t : List ℕ) (i j : ℕ) : α :=
  d (t.getD i 0) (t.getD ((i + 1) % N) 0) + d (t.getD j 0) (t.getD ((j + 1) % N) 0)

/-- Cost of the reconnected edges `(tour[i],tour[j])`,
`(tour[i+1],tour[j+1])` (`solve.py` line 107). -/
def newPair (d : ℕ → ℕ → α) (N : ℕ) (t : List ℕ) (i j : ℕ) : α :=
  d (t.getD i 0) (t.getD j 0) + d (t.getD ((i + 1) % N) 0) (t.getD ((j + 1) % N) 0)

/-- The 2-opt segment reversal `tour[i+1 : j+1] = reversed` of `solve.py`
lines 111-112. -/
def twoOptMove (t : List ℕ) (i j : ℕ) : List ℕ :=
  t.take (i + 1) ++ ((t.drop (i + 1)).take (j - i)).reverse ++ t.drop (j + 1)

/-- One position pair of the sweep: apply the reversal iff the reconnection
is strictly cheaper (`solve.py` line 109), recording the `improved` flag. -/
def sweepStep (d : ℕ → ℕ → α) (N : ℕ) (st : List ℕ × Bool) (p : ℕ × ℕ) :
    List ℕ × Bool :=
  if newPair d N st.1 p.1 p.2 < curPair d N st.1 p.1 p.2 then
    (twoOptMove st.1 p.1 p.2, true)
  else st

/-- One full sweep of the double loop, starting with `improved = False`
(`solve.py` line 98); moves are applied in place and the scan continues. -/
def sweep (d : ℕ → ℕ → α) (N : ℕ) (t : List ℕ) : List ℕ × Bool :=
  (pairsTwo N).foldl (sweepStep d N) (t, false)

/-- The `while improved:` loop of `solve.py` lines 96-113, with an explicit
sweep budget; it stops as soon as a sweep reports no improvement. -/
def twoOptIter (d : ℕ → ℕ → α) (N : ℕ) : ℕ → List ℕ → List ℕ
  | 0, t => t
  | f + 1, t =>
    if (sweep d N t).2 then twoOptIter d N f (sweep d N t).1 else (sweep d N t).1

/-- `k` consecutive sweeps (proof device for the termination argument). -/
def sweeps (d : ℕ → ℕ → α) (N : ℕ) : ℕ → List ℕ → List ℕ
  | 0, t => t
  | k + 1, t => sweeps d N k (sweep d N t).1

/-! ## 3-opt refinement (`solves3.py` lines 67-138) -/

/-- The triple-loop scan order `for i in range(N): for j in range(i+2, N):
for k in range(j+2, N + (1 if i > 0 else 0)):` with the `if k >= N: continue`
guard of line 75 — the net effect is `k ∈ [j+2, N)` for every `i`. -/
def triples3 (N : ℕ) : List (ℕ × ℕ × ℕ) :=
  (List.range N).flatMap (fun i =>
    (List.range' (i + 2) (N - (i + 2))).flatMap (fun j =>
      (List.range' (j + 2) (N - (j + 2))).map (fun k => (i, j, k))))

/-- `d0` of `solves3.py` line 85: cost of the three cut edges `(A,B)`,
`(C,D)`, `(E,F)` with `A = tour[i]`, `B = tour[(i+1)%N]`, `C = tour[j]`,
`D = tour[(j+1)%N]`, `E = tour[k]`, `F = tour[(k+1)%N]`. -/
def d0Of (d : ℕ → ℕ → α) (N : ℕ) (t : List ℕ) (i j k : ℕ) : α :=
  d (t.getD i 0) (t.getD ((i + 1) % N) 0) + d (t.getD j 0) (t.getD ((j + 1) % N) 0) +
    d (t.getD k 0) (t.getD ((k + 1) % N) 0)

/-- `d1` of line 88: `d[A][C] + d[B][D] + d[E][F]`. -/
def d1Of (d : ℕ → ℕ → α) (N : ℕ) (t : List ℕ) (i j k : ℕ) : α :=
  d (t.getD i 0) (t.getD j 0) + d (t.getD ((i + 1) % N) 0) (t.getD ((j + 1) % N) 0) +
    d (t.getD k 0) (t.getD ((k + 1) % N) 0)

/-- `d2` of line 89: `d[A][B] + d[C][E] + d[D][F]`. -/
def d2Of (d : ℕ → ℕ → α) (N : ℕ) (t : List ℕ) (i j k : ℕ) : α :=
  d (t.getD i 0) (t.getD ((i + 1) % N) 0) + d (t.getD j 0) (t.getD k 0) +
    d (t.getD ((j + 1) % N) 0) (t.getD ((k + 1) % N) 0)

/-- `d3` of line 90: `d[A][E] + d[F][B] + d[C][D]`. -/
def d3Of (d : ℕ → ℕ → α) (N : ℕ) (t : List ℕ) (i j k : ℕ) : α :=
  d (t.getD i 0) (t.getD k 0) + d (t.getD ((k + 1) % N) 0) (t.getD ((i + 1) % N) 0) +
    d (t.getD j 0) (t.getD ((j + 1) % N) 0)

/-- `d4` of line 93: `d[A][C] + d[B][E] + d[D][F]`. -/
def d4Of (d : ℕ → ℕ → α) (N : ℕ) (t : List ℕ) (i j k : ℕ) : α :=
  d (t.getD i 0) (t.getD j 0) + d (t.getD ((i + 1) % N) 0) (t.getD k 0) +
    d (t.getD ((j + 1) % N) 0) (t.getD ((k + 1) % N) 0)

/-- `d5` of line 94: `d[A][D] + d[E][B] + d[C][F]`. -/
def d5Of (d : ℕ → ℕ → α) (N : ℕ) (t : List ℕ) (i j k : ℕ) : α :=
  d (t.getD i 0) (t.getD ((j + 1) % N) 0) + d (t.getD k 0) (t.getD ((i + 1) % N) 0) +
    d (t.getD j 0) (t.getD ((k + 1) % N) 0)

/-- `d6` of line 95: `d[A][D] + d[E][C] + d[B][F]`. -/
def d6Of (d : ℕ → ℕ → α) (N : ℕ) (t : List ℕ) (i j k : ℕ) : α :=
  d (t.getD i 0) (t.getD ((j + 1) % N) 0) + d (t.getD k 0) (t.getD j 0) +
    d (t.getD ((i + 1) % N) 0) (t.getD ((k + 1) % N) 0)

/-- `d7` of line 96: `d[A][E] + d[F][C] + d[B][D]`. -/
def d7Of (d : ℕ → ℕ → α) (N : ℕ) (t : List ℕ) (i j k : ℕ) : α :=
  d (t.getD i 0) (t.getD k 0) + d (t.getD ((k + 1) % N) 0) (t.getD j 0) +
    d (t.getD ((i + 1) % N) 0) (t.getD ((j + 1) % N) 0)

/-- `best_dist = min(d0, d1, ..., d7)` of line 99 (Python left fold). -/
def best8 (d : ℕ → ℕ → α) (N : ℕ) (t : List ℕ) (i j k : ℕ) : α :=
  min (min (min (min (min (min (min (d0Of d N t i j k) (d1Of d N t i j k))
    (d2Of d N t i j k)) (d3Of d N t i j k)) (d4Of d N t i j k))
    (d5Of d N t i j k)) (d6Of d N t i j k)) (d7Of d N t i j k)

/-- The guard `best_dist < d0` of line 101. -/
def improves (d : ℕ → ℕ → α) (N : ℕ) (t : List ℕ) (tr : ℕ × ℕ × ℕ) : Bool :=
  decide (best8 d N t tr.1 tr.2.1 tr.2.2 < d0Of d N t tr.1 tr.2.1 tr.2.2)

/-- The first improving triple in scan order — the `break`-out-of-all-loops
control flow of lines 136-138 reduces each iteration of the `while` loop to
exactly this search. -/
def findImproving (d : ℕ → ℕ → α) (N : ℕ) (t : List ℕ) : Option (ℕ × ℕ × ℕ) :=
  (triples3 N).find? (improves d N t)

/-- Move application of lines 105-133: segments `s1 = tour[i+1 : j+1]`,
`s2 = tour[j+1 : k+1]`, prefix `tour[:i+1]`, suffix `tour[k+1:]`, then the
`elif best_dist == dX` reassembly chain in source order.  The final `else`
(no pattern matched, dropping both segments) is dead code in Python, kept for
faithfulness. -/
def apply3 (d : ℕ → ℕ → α) (N : ℕ) (t : List ℕ) (i j k : ℕ) : List ℕ :=
  let s1 := (t.drop (i + 1)).take (j - i)
  let s2 := (t.drop (j + 1)).take (k - j)
  let pre := t.take (i + 1)
  let suf := t.drop (k + 1)
  let best := best8 d N t i j k
  if best = d1Of d N t i j k then pre ++ s1.reverse ++ s2 ++ suf
  else if best = d2Of d N t i j k then pre ++ s1 ++ s2.reverse ++ suf
  else if best = d3Of d N t i j k then pre ++ (s1 ++ s2).reverse ++ suf
  else if best = d4Of d N t i j k then pre ++ s1.reverse ++ s2.reverse ++ suf
  else if best = d5Of d N t i j k then pre ++ s2 ++ s1 ++ suf
  else if best = d6Of d N t i j k then pre ++ s2.reverse ++ s1 ++ suf
  else if best = d7Of d N t i j k then pre ++ s2 ++ s1.reverse ++ suf
  else pre ++ suf

/-- The `while improved:` loop of `solves3.py`: find the first improving
triple, apply it, restart the scan; stop when no triple improves.  The budget
is explicit because the loop provably need not terminate
(`C8_threeOpt_never_terminates`). -/
def threeOptIter (d : ℕ → ℕ → α) (N : ℕ) : ℕ → List ℕ → List ℕ
  | 0, t => t
  | f + 1, t =>
    match findImproving d N t with
    | none => t
    | some (i, j, k) => threeOptIter d N f (apply3 d N t i j k)

/-! ## Tour length -/

/-- Length of the walk that starts at `a` and visits `l` in order. -/
def pathFrom (d : ℕ → ℕ → α) : ℕ → List ℕ → α
  | _, [] => 0
  | a, b :: l => d a b + pathFrom d b l

/-- Total cyclic tour length: the sum of the distances between consecutive
tour entries, including the wrap-around edge from the last back to the
first. -/
def tourLength (d : ℕ → ℕ → α) : List ℕ → α
  | [] => 0
  | a :: l => pathFrom d a (l ++ [a])

/-- Last element of `a :: l` (endpoint bookkeeping for path decompositions). -/
def endOf (a : ℕ) (l : List ℕ) : ℕ :=
  l.getLastD a

end EngineDefs

section PipelineDefs

variable {α : Type} [LinearOrderedField α]

/-- Construction phase of `solve.py` (lines 45-93): the classifier feeds the
tour builder. -/
def construct2 (d : ℕ → ℕ → α) (N : ℕ) : List ℕ :=
  buildTour2 d (remainingIndices2 d N) (isolatedIndices2 d N) N

/-- `remaining_indices` after the reset of `solves3.py` lines 35-37: if the
core set is empty it becomes all indices. -/
def coreReset3 (d : ℕ → ℕ → α) (N : ℕ) : List ℕ :=
  if (remainingIndices3 d N).isEmpty then List.range N else remainingIndices3 d N

/-- `isolated_indices` after the reset of `solves3.py` lines 35-37. -/
def isoReset3 (d : ℕ → ℕ → α) (N : ℕ) : List ℕ :=
  if (remainingIndices3 d N).isEmpty then [] else isolatedIndices3 d N

/-- Construction phase of `solves3.py` (lines 33-63): the reset rule, then the
same two insertion loops as `solve.py`. -/
def construct3 (d : ℕ → ℕ → α) (N : ℕ) : List ℕ :=
  buildTour3 d (coreReset3 d N) (isoReset3 d N)

/-- `solve` of `solve.py`: empty answer for `N = 0` (line 19), construction,
then the 2-opt loop.  A budget of `N!` sweeps is proven sufficient
(`solve2_sweep_fix`), so the returned tour is exactly the fixpoint the
unbounded Python loop reaches. -/
def solve2 (d : ℕ → ℕ → α) (N : ℕ) : List ℕ :=
  if N = 0 then [] else twoOptIter d N (Nat.factorial N) (construct2 d N)

/-- `solve` of `solves3.py`: empty answer for `N = 0` (line 19), construction,
then the 3-opt loop with an explicit sweep budget. -/
def solve3 (d : ℕ → ℕ → α) (N fuel : ℕ) : List ℕ :=
  if N = 0 then [] else threeOptIter d N fuel (construct3 d N)

/-! ## Spec-side classifier

Written from the spec's words (§4.2): `nearest(i) = min over j ≠ i of
entry(i,j)` (`0` when `N ≤ 1`), `threshold = 1.5 × mean(nearest)`. -/

/-- Modelled from the spec: the nearest-neighbour distance
`min over j ≠ i of entry(i,j)`, defined as `0` for `N ≤ 1` (spec §4.2). -/
def specNearest (d : ℕ → ℕ → α) (N i : ℕ) : α :=
  if h : ((Finset.range N).erase i).Nonempty then
    ((Finset.range N).erase i).inf' h (d i)
  else 0

/-- Modelled from the spec: `threshold = 1.5 × mean(nearest(i) for all i)`
(spec §4.2). -/
def specThreshold (d : ℕ → ℕ → α) (N : ℕ) : α :=
  3 / 2 * ((∑ j ∈ Finset.range N, specNearest d N j) / (N : α))

end PipelineDefs

/-- All permutations of `[0, ..., N-1]`, as a finset (proof device for the
termination bound). -/
def permsFinset (N : ℕ) : Finset (List ℕ) :=
  ((List.range N).permutations).toFinset

/-- Invariant of the insertion scan state: a selected candidate is a real
candidate and the selected edge position is in bounds (proof device). -/
def insValid {α : Type} (tour cands : List ℕ) : Option (α × ℕ × ℕ) → Prop
  | none => True
  | some (_, p, i) => p ∈ cands ∧ i < tour.length

/-! ## Concrete instances

Rational tables used to evaluate the engine on explicit inputs.  The planar
instances are chosen so that every pairwise Euclidean distance is an integer,
which lets the ℝ-valued pipeline be computed exactly through its ℚ image. -/

/-- Symmetric table lookup with default `0`. -/
def mat (tbl : List (List ℤ)) (i j : ℕ) : ℤ :=
  (tbl.getD i []).getD j 0

/-- Five planar points `(-19,0), (11,0), (16,12), (51,0), (16,-12)`, listed in
an optimal cyclic order (tour length 154).  Row/column 5 holds the distances
to the out-of-range default point `(0,0)`, so `mat tblC7 (min i 5) (min j 5)`
is the full Euclidean matrix of `citiesC7`. -/
def tblC7 : List (List ℤ) :=
  [[0, 30, 37, 70, 37, 19], [30, 0, 13, 40, 13, 11], [37, 13, 0, 37, 24, 20],
   [70, 40, 37, 0, 37, 51], [37, 13, 24, 37, 0, 20], [19, 11, 20, 51, 20, 0]]

/-- The full (clamped) integer matrix of `citiesC7`. -/
def mzC7 (i j : ℕ) : ℤ :=
  mat tblC7 (min i 5) (min j 5)

/-- The same matrix with values in ℚ (the classifier divides). -/
def mqC7 (i j : ℕ) : ℚ :=
  ((mzC7 i j : ℤ) : ℚ)

/-- The five cities realising `tblC7`. -/
def citiesC7 : List (ℝ × ℝ) :=
  [(-19, 0), (11, 0), (16, 12), (51, 0), (16, -12)]

/-- Six planar points `(16,-12), (16,12), (32,0), (-19,0), (0,0), (11,0)`;
row/column 6 holds the distances to the default point `(0,0)` (which is also
city 4). -/
def tblC5 : List (List ℤ) :=
  [[0, 24, 20, 37, 20, 13, 20], [24, 0, 20, 37, 20, 13, 20],
   [20, 20, 0, 51, 32, 21, 32], [37, 37, 51, 0, 19, 30, 19],
   [20, 20, 32, 19, 0, 11, 0], [13, 13, 21, 30, 11, 0, 11],
   [20, 20, 32, 19, 0, 11, 0]]

/-- The full (clamped) integer matrix of `citiesC5`. -/
def mzC5 (i j : ℕ) : ℤ :=
  mat tblC5 (min i 6) (min j 6)

/-- The same matrix with values in ℚ. -/
def mqC5 (i j : ℕ) : ℚ :=
  ((mzC5 i j : ℤ) : ℚ)

/-- The six cities realising `tblC5`. -/
def citiesC5 : List (ℝ × ℝ) :=
  [(16, -12), (16, 12), (32, 0), (-19, 0), (0, 0), (11, 0)]

/-- Seven planar points `(-63,0), (-11,0), (0,-60), (0,0), (0,60), (11,0),
(80,0)` whose pairwise Euclidean distances are all integers, and on which the
3-opt loop of `solves3.py` revisits its own state forever.  Row/column 7
holds the distances to the out-of-range default point `(0,0)` (which is also
city 3). -/
def tblC8 : List (List ℤ) :=
  [[0, 52, 87, 63, 87, 74, 143, 63], [52, 0, 61, 11, 61, 22, 91, 11],
   [87, 61, 0, 60, 120, 61, 100, 60], [63, 11, 60, 0, 60, 11, 80, 0],
   [87, 61, 120, 60, 0, 61, 100, 60], [74, 22, 61, 11, 61, 0, 69, 11],
   [143, 91, 100, 80, 100, 69, 0, 80], [63, 11, 60, 0, 60, 11, 80, 0]]

/-- The full (clamped) integer matrix of `citiesC8`. -/
def mzC8 (i j : ℕ) : ℤ :=
  mat tblC8 (min i 7) (min j 7)

/-- The same matrix with values in ℚ (the classifier divides). -/
def mqC8 (i j : ℕ) : ℚ :=
  ((mzC8 i j : ℤ) : ℚ)

/-- The seven cities realising `tblC8`. -/
def citiesC8 : List (ℝ × ℝ) :=
  [(-63, 0), (-11, 0), (0, -60), (0, 0), (0, 60), (11, 0), (80, 0)]

/-! ## List bookkeeping lemmas -/

theorem getLastD_take (l : List ℕ) (i x : ℕ) (h : i < l.length) :
    (l.take (i + 1)).getLastD x = l.getD i 0 := by
  induction l generalizing i x with
  | nil => simp at h
  | cons a t ih =>
      cases i with
      | zero => simp [List.getLastD_cons]
      | succ m =>
          simp only [List.take_succ_cons, List.getLastD_cons, List.getD_cons_succ]
          exact ih m a (by simpa using h)

theorem headD_drop (l : List ℕ) (k x : ℕ) : (l.drop k).headD x = l.getD k x := by
  induction l generalizing k with
  | nil => simp
  | cons a t ih =>
      cases k with
      | zero => simp
      | succ m => simpa using ih m

theorem getD_drop (l : List ℕ) (k m x : ℕ) : (l.drop k).getD m x = l.getD (k + m) x := by
  induction l generalizing k with
  | nil => simp
  | cons a t ih =>
      cases k with
      | zero => simp
      | succ n => simpa [Nat.succ_add] using ih n

theorem getLastD_reverse (l : List ℕ) (x : ℕ) : l.reverse.getLastD x = l.headD x := by
  cases l with
  | nil => rfl
  | cons a t => simp [List.getLastD_eq_getLast?, List.getLast?_reverse]

theorem headD_take (l : List ℕ) (n x : ℕ) (h : 0 < n) : (l.take n).headD x = l.headD x := by
  cases l with
  | nil => simp
  | cons a t => cases n with
      | zero => omega
      | succ m => simp

theorem getD_indep (l : List ℕ) (n x y : ℕ) (h : n < l.length) :
    l.getD n x = l.getD n y := by
  rw [List.getD_eq_getElem l x h, List.getD_eq_getElem l y h]

theorem getLastD_indep (l : List ℕ) (x y : ℕ) (h : l ≠ []) :
    l.getLastD x = l.getLastD y := by
  obtain ⟨z, hz⟩ := Option.isSome_iff_exists.mp (List.getLast?_isSome.mpr h)
  rw [List.getLastD_eq_getLast?, List.getLastD_eq_getLast?, hz]
  rfl

theorem endOf_cons (a b : ℕ) (l : List ℕ) : endOf a (b :: l) = endOf b l :=
  List.getLastD_cons a b l

theorem endOf_append (a : ℕ) (l1 l2 : List ℕ) :
    endOf a (l1 ++ l2) = endOf (endOf a l1) l2 := by
  induction l1 generalizing a with
  | nil => simp [endOf]
  | cons b t ih => simpa [endOf_cons] using ih b

variable {α : Type} [LinearOrderedField α]

theorem pathFrom_append (d : ℕ → ℕ → α) (a : ℕ) (l1 l2 : List ℕ) :
    pathFrom d a (l1 ++ l2) = pathFrom d a l1 + pathFrom d (endOf a l1) l2 := by
  induction l1 generalizing a with
  | nil => simp [pathFrom, endOf]
  | cons b t ih => simp [pathFrom, endOf_cons, ih b, add_assoc]

theorem pathFrom_rev (d : ℕ → ℕ → α) (hsym : ∀ a b, d a b = d b a) (a b : ℕ)
    (l : List ℕ) : pathFrom d a (l ++ [b]) = pathFrom d b (l.reverse ++ [a]) := by
  induction l generalizing a with
  | nil => simp [pathFrom, hsym a b]
  | cons x t ih =>
      have h1 : pathFrom d a ((x :: t) ++ [b]) = d a x + pathFrom d b (t.reverse ++ [x]) := by
        simp [pathFrom, ih x]
      have h2 : pathFrom d b ((x :: t).reverse ++ [a]) =
          pathFrom d b (t.reverse ++ [x]) + d x a := by
        have : (x :: t).reverse ++ [a] = (t.reverse ++ [x]) ++ [a] := by simp
        rw [this, pathFrom_append]
        have he : endOf b (t.reverse ++ [x]) = x := by
          simp [endOf]
        simp [he, pathFrom]
      rw [h1, h2, hsym a x]
      ring

theorem headD_getD (l : List ℕ) (x : ℕ) : l.headD x = l.getD 0 x := by
  cases l <;> rfl

/-- The length bookkeeping of a single 2-opt reversal (`solve.py` lines
105-112): reversing `tour[i+1 : j+1]` removes the two current edges and adds
the two reconnected ones; every interior edge of the reversed segment keeps
its length because the matrix is symmetric. -/
theorem tourLength_twoOptMove (d : ℕ → ℕ → α) (hsym : ∀ a b, d a b = d b a)
    (t : List ℕ) (i j : ℕ) (hij : i + 2 ≤ j) (hj : j < t.length) :
    tourLength d (twoOptMove t i j) =
      tourLength d t - curPair d t.length t i j + newPair d t.length t i j := by
  have hiN : i + 1 < t.length := by omega
  have hmodi : (i + 1) % t.length = i + 1 := Nat.mod_eq_of_lt hiN
  -- the three slices
  set P := t.take (i + 1) with hPdef
  set M := (t.drop (i + 1)).take (j - i) with hMdef
  set S := t.drop (j + 1) with hSdef
  have hsplit : P ++ (M ++ S) = t := by
    have h3 : (t.drop (i + 1)).drop (j - i) = t.drop (j + 1) := by
      rw [List.drop_drop]; congr 1; omega
    rw [hPdef, hMdef, hSdef, ← h3, List.take_append_drop, List.take_append_drop]
  have hmove : twoOptMove t i j = P ++ (M.reverse ++ S) := by
    simp [twoOptMove, hPdef, hMdef, hSdef, List.append_assoc]
  have hPlen : P.length = i + 1 := by
    rw [hPdef, List.length_take]; omega
  have hMlen : M.length = j - i := by
    rw [hMdef, List.length_take, List.length_drop]; omega
  obtain ⟨a, P1, hP⟩ : ∃ a P1, P = a :: P1 := by
    cases hPc : P with
    | nil => rw [hPc] at hPlen; simp at hPlen
    | cons x y => exact ⟨x, y, rfl⟩
  obtain ⟨B, Ms, hM⟩ : ∃ B Ms, M = B :: Ms := by
    cases hMc : M with
    | nil => rw [hMc] at hMlen; simp at hMlen; omega
    | cons x y => exact ⟨x, y, rfl⟩
  -- the four distinguished tour entries
  have hA : endOf a P1 = t.getD i 0 := by
    have h1 : endOf a P1 = P.getLastD 0 := by
      rw [hP, endOf]; exact (List.getLastD_cons 0 a P1).symm
    rw [h1, hPdef, getLastD_take t i 0 (by omega)]
  have hB : B = t.getD (i + 1) 0 := by
    have h1 : M.headD 0 = B := by rw [hM]; rfl
    rw [← h1, hMdef, headD_take _ _ _ (by omega), headD_drop]
  have hC : endOf B Ms = t.getD j 0 := by
    have h1 : endOf B Ms = M.getLastD 0 := by
      rw [hM, endOf]; exact (List.getLastD_cons 0 B Ms).symm
    have h2 : j - i = (j - i - 1) + 1 := by omega
    rw [h1, hMdef, h2, getLastD_take _ _ _ (by rw [List.length_drop]; omega), getD_drop]
    congr 1; omega
  have ha : a = t.getD 0 0 := by
    have h1 : P.headD 0 = a := by rw [hP]; rfl
    rw [← h1, hPdef, headD_take _ _ _ (by omega), headD_getD]
  -- the wrap entry after position j
  obtain ⟨w, W, hW⟩ : ∃ w W, S ++ [a] = w :: W := by
    cases hSc : S with
    | nil => exact ⟨a, [], rfl⟩
    | cons x y => exact ⟨x, y ++ [a], rfl⟩
  have hw : w = t.getD ((j + 1) % t.length) 0 := by
    cases hSc : S with
    | nil =>
        have hlen : t.length ≤ j + 1 := by
          have := congrArg List.length hSc
          rw [hSdef, List.length_drop] at this
          simp at this; omega
        have hmod : (j + 1) % t.length = 0 := by
          have : j + 1 = t.length := by omega
          simp [this]
        rw [hSc] at hW
        have : w = a := by simpa using congrArg (fun l => l.headD 0) hW.symm
        rw [this, ha, hmod]
    | cons s0 S1 =>
        have hjlt : j + 1 < t.length := by
          by_contra hcon
          have : S = [] := by
            rw [hSdef, List.drop_eq_nil_iff]
            omega
          rw [hSc] at this; simp at this
        have hmod : (j + 1) % t.length = j + 1 := Nat.mod_eq_of_lt hjlt
        have h1 : S.headD 0 = w := by
          rw [hSc]
          rw [hSc] at hW
          simpa using congrArg (fun l => l.headD 0) hW
        rw [← h1, hSdef, headD_drop, hmod]
  -- linearised tour lengths
  have hold : tourLength d t =
      pathFrom d a P1 + (d (t.getD i 0) B + pathFrom d B Ms) +
        (d (t.getD j 0) w + pathFrom d w W) := by
    conv_lhs => rw [← hsplit, hP]
    show pathFrom d a ((P1 ++ (M ++ S)) ++ [a]) = _
    rw [List.append_assoc, List.append_assoc, pathFrom_append, hM]
    show _ + (d (endOf a P1) B + pathFrom d B (Ms ++ (S ++ [a]))) = _
    rw [pathFrom_append, hW, hA, hC]
    show _ + (_ + (_ + (d (t.getD j 0) w + pathFrom d w W))) = _
    ring
  have hnew : tourLength d (twoOptMove t i j) =
      pathFrom d a P1 + (pathFrom d B Ms + d (t.getD j 0) (t.getD i 0)) +
        (d B w + pathFrom d w W) := by
    rw [hmove, hP]
    show pathFrom d a ((P1 ++ (M.reverse ++ S)) ++ [a]) = _
    rw [List.append_assoc, List.append_assoc, pathFrom_append]
    have hrev : M.reverse = Ms.reverse ++ [B] := by rw [hM]; simp
    have hpr : pathFrom d (endOf a P1) (M.reverse ++ (S ++ [a])) =
        pathFrom d (endOf a P1) M.reverse + pathFrom d B (S ++ [a]) := by
      rw [pathFrom_append]
      congr 2
      rw [hrev, endOf_append]
      rfl
    rw [hpr, hrev, pathFrom_rev d hsym, List.reverse_reverse, pathFrom_append, hA, hC, hW]
    show _ + ((pathFrom d B Ms + (d (t.getD j 0) (t.getD i 0) + 0)) +
      (d B w + pathFrom d w W)) = _
    ring
  rw [hold, hnew, curPair, newPair, hmodi, ← hB, hsym (t.getD i 0) (t.getD j 0), ← hw]
  ring

/-! ## Permutation bookkeeping of the 2-opt sweep -/

theorem twoOptMove_perm (t : List ℕ) (i j : ℕ) (hij : i ≤ j) :
    List.Perm (twoOptMove t i j) t := by
  have h3 : (t.drop (i + 1)).drop (j - i) = t.drop (j + 1) := by
    rw [List.drop_drop]; congr 1; omega
  have hp : List.Perm (twoOptMove t i j)
      (t.take (i + 1) ++ ((t.drop (i + 1)).take (j - i)) ++ t.drop (j + 1)) := by
    rw [twoOptMove, List.append_assoc, List.append_assoc]
    exact List.Perm.append_left _ (List.Perm.append_right _ (List.reverse_perm _))
  have he : t.take (i + 1) ++ ((t.drop (i + 1)).take (j - i)) ++ t.drop (j + 1) = t := by
    rw [List.append_assoc, ← h3, List.take_append_drop, List.take_append_drop]
  rw [he] at hp
  exact hp

theorem mem_pairsTwo (N i j : ℕ) : (i, j) ∈ pairsTwo N ↔ i + 2 ≤ j ∧ j < N := by
  simp only [pairsTwo, List.mem_flatMap, List.mem_map, List.mem_range]
  constructor
  · rintro ⟨a, ha, b, hb, heq⟩
    rw [List.mem_range'] at hb
    obtain ⟨c, hc, rfl⟩ := hb
    cases heq
    omega
  · rintro ⟨h1, h2⟩
    exact ⟨i, by omega, ⟨j, by rw [List.mem_range']; exact ⟨j - (i + 2), by omega, by omega⟩,
      rfl⟩⟩

theorem sweepFold_flagmono (d : ℕ → ℕ → α) (N : ℕ) (ps : List (ℕ × ℕ))
    (st : List ℕ × Bool) (h : st.2 = true) :
    (ps.foldl (sweepStep d N) st).2 = true := by
  induction ps generalizing st with
  | nil => exact h
  | cons p ps ih =>
      rw [List.foldl_cons]
      apply ih
      by_cases hc : newPair d N st.1 p.1 p.2 < curPair d N st.1 p.1 p.2
      · simp [sweepStep, hc]
      · simpa [sweepStep, hc] using h

theorem sweepFold_master (d : ℕ → ℕ → α) (hsym : ∀ a b, d a b = d b a) (N : ℕ)
    (ps : List (ℕ × ℕ)) (hps : ∀ p ∈ ps, p.1 + 2 ≤ p.2 ∧ p.2 < N) :
    ∀ st : List ℕ × Bool, List.Perm st.1 (List.range N) →
      List.Perm (ps.foldl (sweepStep d N) st).1 (List.range N) ∧
      (ps.foldl (sweepStep d N) st = st ∨
        ((ps.foldl (sweepStep d N) st).2 = true ∧
          tourLength d (ps.foldl (sweepStep d N) st).1 < tourLength d st.1)) := by
  induction ps with
  | nil => exact fun st hst => ⟨hst, Or.inl rfl⟩
  | cons p ps ih =>
      intro st hst
      have hpmem := hps p (List.mem_cons_self p ps)
      have hrest : ∀ q ∈ ps, q.1 + 2 ≤ q.2 ∧ q.2 < N :=
        fun q hq => hps q (List.mem_cons_of_mem p hq)
      rw [List.foldl_cons]
      by_cases hc : newPair d N st.1 p.1 p.2 < curPair d N st.1 p.1 p.2
      · have hstep : sweepStep d N st p = (twoOptMove st.1 p.1 p.2, true) := by
          simp [sweepStep, hc]
        have hlen : st.1.length = N := by
          simpa using hst.length_eq
        have hperm1 : List.Perm (twoOptMove st.1 p.1 p.2) st.1 :=
          twoOptMove_perm st.1 p.1 p.2 (by omega)
        have hlt : tourLength d (twoOptMove st.1 p.1 p.2) < tourLength d st.1 := by
          have hid := tourLength_twoOptMove d hsym st.1 p.1 p.2 hpmem.1
            (by rw [hlen]; exact hpmem.2)
          rw [hid, hlen]
          linarith
        have ihr := (ih hrest) (twoOptMove st.1 p.1 p.2, true) (hperm1.trans hst)
        rw [hstep]
        refine ⟨ihr.1, Or.inr ?_⟩
        rcases ihr.2 with heq | ⟨hflag, hlt2⟩
        · rw [heq]
          exact ⟨rfl, hlt⟩
        · exact ⟨hflag, lt_trans hlt2 hlt⟩
      · have hstep : sweepStep d N st p = st := by
          simp [sweepStep, hc]
        rw [hstep]
        exact ih hrest st hst

theorem sweepFold_noimp (d : ℕ → ℕ → α) (N : ℕ) (ps : List (ℕ × ℕ)) :
    ∀ t : List ℕ, (ps.foldl (sweepStep d N) (t, false)).2 = false →
      (ps.foldl (sweepStep d N) (t, false)).1 = t ∧
        ∀ p ∈ ps, ¬ (newPair d N t p.1 p.2 < curPair d N t p.1 p.2) := by
  induction ps with
  | nil => exact fun t _ => ⟨rfl, by simp⟩
  | cons p ps ih =>
      intro t hflag
      rw [List.foldl_cons] at hflag ⊢
      by_cases hc : newPair d N t p.1 p.2 < curPair d N t p.1 p.2
      · exfalso
        have hstep : sweepStep d N (t, false) p = (twoOptMove t p.1 p.2, true) := by
          simp [sweepStep, hc]
        rw [hstep] at hflag
        rw [sweepFold_flagmono d N ps _ rfl] at hflag
        exact Bool.true_eq_false.mp hflag
      · have hstep : sweepStep d N (t, false) p = (t, false) := by
          simp [sweepStep, hc]
        rw [hstep] at hflag ⊢
        obtain ⟨h1, h2⟩ := ih t hflag
        refine ⟨h1, fun q hq => ?_⟩
        rcases List.mem_cons.mp hq with rfl | hq2
        · exact hc
        · exact h2 q hq2

theorem sweep_perm (d : ℕ → ℕ → α) (hsym : ∀ a b, d a b = d b a) (N : ℕ)
    (t : List ℕ) (ht : List.Perm t (List.range N)) :
    List.Perm (sweep d N t).1 (List.range N) :=
  (sweepFold_master d hsym N (pairsTwo N)
    (fun p hp => by
      have := (mem_pairsTwo N p.1 p.2).mp (by simpa using hp)
      exact this) (t, false) ht).1

theorem sweep_lt (d : ℕ → ℕ → α) (hsym : ∀ a b, d a b = d b a) (N : ℕ)
    (t : List ℕ) (ht : List.Perm t (List.range N)) (h : (sweep d N t).2 = true) :
    tourLength d (sweep d N t).1 < tourLength d t := by
  have hm := (sweepFold_master d hsym N (pairsTwo N)
    (fun p hp => (mem_pairsTwo N p.1 p.2).mp (by simpa using hp)) (t, false) ht).2
  rcases hm with heq | ⟨_, hlt⟩
  · rw [sweep, heq] at h
    exact absurd h (by simp)
  · exact hlt

theorem sweep_le (d : ℕ → ℕ → α) (hsym : ∀ a b, d a b = d b a) (N : ℕ)
    (t : List ℕ) (ht : List.Perm t (List.range N)) :
    tourLength d (sweep d N t).1 ≤ tourLength d t := by
  have hm := (sweepFold_master d hsym N (pairsTwo N)
    (fun p hp => (mem_pairsTwo N p.1 p.2).mp (by simpa using hp)) (t, false) ht).2
  rcases hm with heq | ⟨_, hlt⟩
  · rw [sweep, heq]
  · exact le_of_lt hlt

theorem sweep_false (d : ℕ → ℕ → α) (N : ℕ) (t : List ℕ)
    (h : (sweep d N t).2 = false) :
    (sweep d N t).1 = t ∧
      ∀ i j, i + 2 ≤ j → j < N → ¬ (newPair d N t i j < curPair d N t i j) := by
  obtain ⟨h1, h2⟩ := sweepFold_noimp d N (pairsTwo N) t h
  exact ⟨h1, fun i j hij hj =>
    h2 (i, j) ((mem_pairsTwo N i j).mpr ⟨hij, hj⟩)⟩

theorem sweepFold_perm (d : ℕ → ℕ → α) (N : ℕ) (ps : List (ℕ × ℕ))
    (hps : ∀ p ∈ ps, p.1 ≤ p.2) (L : List ℕ) :
    ∀ st : List ℕ × Bool, List.Perm st.1 L →
      List.Perm (ps.foldl (sweepStep d N) st).1 L := by
  induction ps with
  | nil => exact fun st hst => hst
  | cons p ps ih =>
      intro st hst
      rw [List.foldl_cons]
      apply ih (fun q hq => hps q (List.mem_cons_of_mem p hq))
      by_cases hc : newPair d N st.1 p.1 p.2 < curPair d N st.1 p.1 p.2
      · have hstep : sweepStep d N st p = (twoOptMove st.1 p.1 p.2, true) := by
          simp [sweepStep, hc]
        rw [hstep]
        exact (twoOptMove_perm st.1 p.1 p.2 (hps p (List.mem_cons_self p ps))).trans hst
      · have hstep : sweepStep d N st p = st := by simp [sweepStep, hc]
        rw [hstep]; exact hst

theorem sweep_perm_nosym (d : ℕ → ℕ → α) (N : ℕ) (t : List ℕ) (L : List ℕ)
    (ht : List.Perm t L) : List.Perm (sweep d N t).1 L :=
  sweepFold_perm d N (pairsTwo N)
    (fun p hp => by
      have := (mem_pairsTwo N p.1 p.2).mp (by simpa using hp)
      omega) L (t, false) ht

/-! ## Insertion-scan invariants -/

theorem updBest_some (d : ℕ → ℕ → α) (tour : List ℕ) (p : ℕ)
    (st : Option (α × ℕ × ℕ)) (i : ℕ) : (updBest d tour p st i).isSome := by
  cases st with
  | none => rfl
  | some b =>
      obtain ⟨c, bp, bi⟩ := b
      by_cases h : insCost d tour p i < c <;> simp [updBest, h]

theorem updBest_valid (d : ℕ → ℕ → α) (tour cands : List ℕ) (p i : ℕ)
    (hp : p ∈ cands) (hi : i < tour.length) (st : Option (α × ℕ × ℕ))
    (h : insValid tour cands st) : insValid tour cands (updBest d tour p st i) := by
  cases st with
  | none => exact ⟨hp, hi⟩
  | some b =>
      obtain ⟨c, bp, bi⟩ := b
      by_cases hc : insCost d tour p i < c
      · simpa [updBest, hc] using ⟨hp, hi⟩
      · simpa [updBest, hc] using h

theorem innerFold_valid (d : ℕ → ℕ → α) (tour cands : List ℕ) (p : ℕ)
    (hp : p ∈ cands) (l : List ℕ) (hl : ∀ i ∈ l, i < tour.length) :
    ∀ st : Option (α × ℕ × ℕ), insValid tour cands st →
      insValid tour cands (l.foldl (updBest d tour p) st) := by
  induction l with
  | nil => exact fun st h => h
  | cons i l ih =>
      intro st h
      rw [List.foldl_cons]
      exact ih (fun a ha => hl a (List.mem_cons_of_mem i ha)) _
        (updBest_valid d tour cands p i hp (hl i (List.mem_cons_self i l)) st h)

theorem innerFold_some (d : ℕ → ℕ → α) (tour : List ℕ) (p : ℕ) (l : List ℕ) :
    ∀ st : Option (α × ℕ × ℕ), st.isSome ∨ l ≠ [] →
      (l.foldl (updBest d tour p) st).isSome := by
  induction l with
  | nil =>
      rintro st (h | h)
      · exact h
      · exact absurd rfl h
  | cons i l ih =>
      intro st _
      rw [List.foldl_cons]
      exact ih _ (Or.inl (updBest_some d tour p st i))

theorem bestIns_valid (d : ℕ → ℕ → α) (tour cands : List ℕ) :
    insValid tour cands (bestIns d tour cands) := by
  rw [bestIns]
  have master : ∀ cs : List ℕ, (∀ q ∈ cs, q ∈ cands) →
      ∀ st : Option (α × ℕ × ℕ), insValid tour cands st →
        insValid tour cands (cs.foldl
          (fun st p => (List.range tour.length).foldl (updBest d tour p) st) st) := by
    intro cs
    induction cs with
    | nil => exact fun _ st h => h
    | cons p cs ih =>
        intro hcs st h
        rw [List.foldl_cons]
        exact ih (fun q hq => hcs q (List.mem_cons_of_mem p hq)) _
          (innerFold_valid d tour cands p (hcs p (List.mem_cons_self p cs))
            (List.range tour.length) (fun i hi => List.mem_range.mp hi) st h)
  exact master cands (fun q hq => hq) none trivial

theorem bestIns_some (d : ℕ → ℕ → α) (tour cands : List ℕ) (hc : cands ≠ [])
    (ht : tour ≠ []) : (bestIns d tour cands).isSome := by
  rw [bestIns]
  have hrange : List.range tour.length ≠ [] := by
    simp [List.range_eq_nil]
    exact ht
  have keep : ∀ cs : List ℕ, ∀ st : Option (α × ℕ × ℕ), st.isSome →
      (cs.foldl (fun st p => (List.range tour.length).foldl (updBest d tour p) st)
        st).isSome := by
    intro cs
    induction cs with
    | nil => exact fun _ h => h
    | cons p cs ih =>
        intro st h
        rw [List.foldl_cons]
        exact ih _ (innerFold_some d tour p _ _ (Or.inl h))
  cases cands with
  | nil => exact absurd rfl hc
  | cons p cs =>
      rw [List.foldl_cons]
      exact keep cs _ (innerFold_some d tour p _ none (Or.inr hrange))

theorem insertAt_perm (n a : ℕ) (l : List ℕ) :
    List.Perm (insertAt n a l) (a :: l) := by
  rw [insertAt]
  exact List.perm_middle.trans (by rw [List.take_append_drop])

theorem insertAt_ne_nil (n a : ℕ) (l : List ℕ) : insertAt n a l ≠ [] := by
  rw [insertAt]
  simp

theorem insertLoop_perm (d : ℕ → ℕ → α) :
    ∀ (f : ℕ) (tour cands : List ℕ), cands.length ≤ f → tour ≠ [] →
      List.Perm (insertLoop d f tour cands) (tour ++ cands) := by
  intro f
  induction f with
  | zero =>
      intro tour cands hlen _
      have : cands = [] := List.length_eq_zero.mp (Nat.le_zero.mp hlen)
      subst this
      simp [insertLoop]
  | succ f ih =>
      intro tour cands hlen htour
      rw [insertLoop]
      by_cases hemp : cands.isEmpty
      · have : cands = [] := List.isEmpty_iff.mp hemp
        subst this
        simp
      · have hc : cands ≠ [] := fun h => hemp (by simp [h])
        simp only [hemp]
        cases hbi : bestIns d tour cands with
        | none =>
            exact absurd hbi (by
              have := bestIns_some d tour cands hc htour
              intro h
              rw [h] at this
              exact absurd this (by simp))
        | some b =>
            obtain ⟨c, p, i⟩ := b
            have hvalid := bestIns_valid d tour cands
            rw [hbi] at hvalid
            obtain ⟨hp, hi⟩ := hvalid
            simp only []
            have hlen2 : (cands.erase p).length ≤ f := by
              rw [List.length_erase_of_mem hp]
              omega
            have hperm := ih (insertAt (i + 1) p tour) (cands.erase p) hlen2
              (insertAt_ne_nil (i + 1) p tour)
            refine hperm.trans ?_
            have h1 : List.Perm (insertAt (i + 1) p tour ++ cands.erase p)
                ((p :: tour) ++ cands.erase p) :=
              (insertAt_perm (i + 1) p tour).append_right _
            refine h1.trans ?_
            have h2 : List.Perm (p :: (tour ++ cands.erase p))
                (tour ++ p :: cands.erase p) := List.perm_middle.symm
            refine (List.cons_append p tour _ ▸ h2).trans ?_
            exact List.Perm.append_left tour (List.perm_cons_erase hp).symm

/-! ## The constructed tours are permutations -/

theorem filters_perm_range (N : ℕ) (q : ℕ → Bool) :
    List.Perm ((List.range N).filter (fun i => !(q i)) ++ (List.range N).filter q)
      (List.range N) :=
  (List.perm_append_comm).trans (List.filter_append_perm q (List.range N))

theorem construct2_perm (d : ℕ → ℕ → α) (N : ℕ) :
    List.Perm (construct2 d N) (List.range N) := by
  rw [construct2]
  cases hrem : remainingIndices2 d N with
  | nil => exact List.Perm.refl _
  | cons c rest =>
      cases rest with
      | nil => exact List.Perm.refl _
      | cons c2 rest2 =>
          have h1 : List.Perm (insertLoop d (c2 :: rest2).length [c] (c2 :: rest2))
              ([c] ++ (c2 :: rest2)) :=
            insertLoop_perm d _ [c] (c2 :: rest2) le_rfl (by simp)
          have hne : insertLoop d (c2 :: rest2).length [c] (c2 :: rest2) ≠ [] := by
            intro hnil
            rw [hnil] at h1
            exact absurd h1.symm.length_eq (by simp)
          have h2 : List.Perm (insertLoop d (isolatedIndices2 d N).length
              (insertLoop d (c2 :: rest2).length [c] (c2 :: rest2))
              (isolatedIndices2 d N))
              (insertLoop d (c2 :: rest2).length [c] (c2 :: rest2) ++
                isolatedIndices2 d N) :=
            insertLoop_perm d _ _ _ le_rfl hne
          refine h2.trans ((h1.append_right _).trans ?_)
          have : ([c] ++ (c2 :: rest2) : List ℕ) = remainingIndices2 d N := by
            rw [hrem]; rfl
          rw [this]
          exact filters_perm_range N _

theorem coreReset3_iso_perm (d : ℕ → ℕ → α) (N : ℕ) :
    List.Perm (coreReset3 d N ++ isoReset3 d N) (List.range N) := by
  rw [coreReset3, isoReset3]
  by_cases hemp : (remainingIndices3 d N).isEmpty
  · simp [hemp]
  · simp only [hemp, if_false]
    exact filters_perm_range N _

theorem construct3_perm (d : ℕ → ℕ → α) (N : ℕ) :
    List.Perm (construct3 d N) (List.range N) := by
  rw [construct3]
  cases hcore : coreReset3 d N with
  | nil =>
      by_cases hemp : (remainingIndices3 d N).isEmpty
      · have hrange : List.range N = [] := by
          rw [coreReset3, if_pos hemp] at hcore
          exact hcore
        rw [hrange]
        exact List.Perm.refl []
      · rw [coreReset3, if_neg hemp] at hcore
        exact absurd (by rw [hcore]; rfl) hemp
  | cons c rest =>
      have h1 : List.Perm (insertLoop d rest.length [c] rest) ([c] ++ rest) :=
        insertLoop_perm d _ [c] rest le_rfl (by simp)
      have hne : insertLoop d rest.length [c] rest ≠ [] := by
        intro hnil
        rw [hnil] at h1
        exact absurd h1.symm.length_eq (by simp)
      have h2 : List.Perm (insertLoop d (isoReset3 d N).length
          (insertLoop d rest.length [c] rest) (isoReset3 d N))
          (insertLoop d rest.length [c] rest ++ isoReset3 d N) :=
        insertLoop_perm d _ _ _ le_rfl hne
      refine h2.trans ((h1.append_right _).trans ?_)
      have : ([c] ++ rest : List ℕ) = coreReset3 d N := by rw [hcore]; rfl
      rw [this]
      exact coreReset3_iso_perm d N

/-! ## The 3-opt move keeps the tour a permutation -/

theorem mem_triples3 (N i j k : ℕ) :
    (i, j, k) ∈ triples3 N ↔ i + 2 ≤ j ∧ j + 2 ≤ k ∧ k < N := by
  simp only [triples3, List.mem_flatMap, List.mem_map, List.mem_range]
  constructor
  · rintro ⟨a, ha, b, hb, c, hc, heq⟩
    rw [List.mem_range'] at hb hc
    obtain ⟨x, hx, rfl⟩ := hb
    obtain ⟨y, hy, rfl⟩ := hc
    cases heq
    omega
  · rintro ⟨h1, h2, h3⟩
    refine ⟨i, by omega, j, ?_, k, ?_, rfl⟩
    · rw [List.mem_range']; exact ⟨j - (i + 2), by omega, by omega⟩
    · rw [List.mem_range']; exact ⟨k - (j + 2), by omega, by omega⟩

theorem best8_mem (d : ℕ → ℕ → α) (N : ℕ) (t : List ℕ) (i j k : ℕ) :
    best8 d N t i j k = d0Of d N t i j k ∨ best8 d N t i j k = d1Of d N t i j k ∨
    best8 d N t i j k = d2Of d N t i j k ∨ best8 d N t i j k = d3Of d N t i j k ∨
    best8 d N t i j k = d4Of d N t i j k ∨ best8 d N t i j k = d5Of d N t i j k ∨
    best8 d N t i j k = d6Of d N t i j k ∨ best8 d N t i j k = d7Of d N t i j k := by
  rw [best8]
  rcases min_choice (min (min (min (min (min (min (d0Of d N t i j k)
    (d1Of d N t i j k)) (d2Of d N t i j k)) (d3Of d N t i j k)) (d4Of d N t i j k))
    (d5Of d N t i j k)) (d6Of d N t i j k)) (d7Of d N t i j k) with h8 | h8
  case inr => exact Or.inr (Or.inr (Or.inr (Or.inr (Or.inr (Or.inr (Or.inr h8))))))
  all_goals rw [h8]; clear h8
  rcases min_choice (min (min (min (min (min (d0Of d N t i j k) (d1Of d N t i j k))
    (d2Of d N t i j k)) (d3Of d N t i j k)) (d4Of d N t i j k)) (d5Of d N t i j k))
    (d6Of d N t i j k) with h7 | h7
  case inr => exact Or.inr (Or.inr (Or.inr (Or.inr (Or.inr (Or.inr (Or.inl h7))))))
  all_goals rw [h7]; clear h7
  rcases min_choice (min (min (min (min (d0Of d N t i j k) (d1Of d N t i j k))
    (d2Of d N t i j k)) (d3Of d N t i j k)) (d4Of d N t i j k)) (d5Of d N t i j k)
    with h6 | h6
  case inr => exact Or.inr (Or.inr (Or.inr (Or.inr (Or.inr (Or.inl h6)))))
  all_goals rw [h6]; clear h6
  rcases min_choice (min (min (min (d0Of d N t i j k) (d1Of d N t i j k))
    (d2Of d N t i j k)) (d3Of d N t i j k)) (d4Of d N t i j k) with h5 | h5
  case inr => exact Or.inr (Or.inr (Or.inr (Or.inr (Or.inl h5))))
  all_goals rw [h5]; clear h5
  rcases min_choice (min (min (d0Of d N t i j k) (d1Of d N t i j k))
    (d2Of d N t i j k)) (d3Of d N t i j k) with h4 | h4
  case inr => exact Or.inr (Or.inr (Or.inr (Or.inl h4)))
  all_goals rw [h4]; clear h4
  rcases min_choice (min (d0Of d N t i j k) (d1Of d N t i j k)) (d2Of d N t i j k)
    with h3 | h3
  case inr => exact Or.inr (Or.inr (Or.inl h3))
  all_goals rw [h3]; clear h3
  rcases min_choice (d0Of d N t i j k) (d1Of d N t i j k) with h2 | h2
  · exact Or.inl h2
  · exact Or.inr (Or.inl h2)

theorem apply3_perm (d : ℕ → ℕ → α) (N : ℕ) (t : List ℕ) (i j k : ℕ)
    (hij : i ≤ j) (hjk : j ≤ k)
    (himp : best8 d N t i j k < d0Of d N t i j k) :
    List.Perm (apply3 d N t i j k) t := by
  have hdecomp : t.take (i + 1) ++ ((t.drop (i + 1)).take (j - i) ++
      ((t.drop (j + 1)).take (k - j) ++ t.drop (k + 1))) = t := by
    have h3 : (t.drop (j + 1)).drop (k - j) = t.drop (k + 1) := by
      rw [List.drop_drop]; congr 1; omega
    have h4 : (t.drop (i + 1)).drop (j - i) = t.drop (j + 1) := by
      rw [List.drop_drop]; congr 1; omega
    rw [← h3, List.take_append_drop, ← h4, List.take_append_drop,
      List.take_append_drop]
  have base : ∀ X : List ℕ,
      List.Perm X ((t.drop (i + 1)).take (j - i) ++ (t.drop (j + 1)).take (k - j)) →
      List.Perm (t.take (i + 1) ++ X ++ t.drop (k + 1)) t := by
    intro X hX
    have h1 : List.Perm (t.take (i + 1) ++ X ++ t.drop (k + 1))
        (t.take (i + 1) ++ ((t.drop (i + 1)).take (j - i) ++
          (t.drop (j + 1)).take (k - j)) ++ t.drop (k + 1)) := by
      rw [List.append_assoc, List.append_assoc]
      exact (hX.append_right _).append_left _
    have h2 : t.take (i + 1) ++ ((t.drop (i + 1)).take (j - i) ++
        (t.drop (j + 1)).take (k - j)) ++ t.drop (k + 1) = t := by
      rw [List.append_assoc, List.append_assoc]
      exact hdecomp
    rw [h2] at h1
    exact h1
  simp only [apply3]
  split_ifs with h1 h2 h3 h4 h5 h6 h7
  · rw [List.append_assoc (t.take (i + 1))]
    exact base _ ((List.reverse_perm _).append_right _)
  · rw [List.append_assoc (t.take (i + 1))]
    exact base _ ((List.reverse_perm _).append_left _)
  · exact base _ (List.reverse_perm _)
  · rw [List.append_assoc (t.take (i + 1))]
    exact base _ (List.Perm.append (List.reverse_perm _) (List.reverse_perm _))
  · rw [List.append_assoc (t.take (i + 1))]
    exact base _ (List.perm_append_comm)
  · rw [List.append_assoc (t.take (i + 1))]
    exact base _ ((List.reverse_perm _).append_right _ |>.trans List.perm_append_comm)
  · rw [List.append_assoc (t.take (i + 1))]
    exact base _ ((List.reverse_perm _).append_left _ |>.trans List.perm_append_comm)
  · exfalso
    rcases best8_mem d N t i j k with h | h | h | h | h | h | h | h
    · exact absurd h (ne_of_lt himp)
    · exact h1 h
    · exact h2 h
    · exact h3 h
    · exact h4 h
    · exact h5 h
    · exact h6 h
    · exact h7 h

theorem threeOptIter_perm (d : ℕ → ℕ → α) (N : ℕ) :
    ∀ (f : ℕ) (t : List ℕ), List.Perm t (List.range N) →
      List.Perm (threeOptIter d N f t) (List.range N) := by
  intro f
  induction f with
  | zero => exact fun t ht => ht
  | succ f ih =>
      intro t ht
      rw [threeOptIter]
      cases hfi : findImproving d N t with
      | none => exact ht
      | some tr =>
          obtain ⟨i, j, k⟩ := tr
          have hmem := List.mem_of_find?_eq_some hfi
          have himp := List.find?_some hfi
          obtain ⟨hij, hjk, hk⟩ := (mem_triples3 N i j k).mp hmem
          rw [improves, decide_eq_true_iff] at himp
          exact ih _ ((apply3_perm d N t i j k (by omega) (by omega) himp).trans ht)

/-! ## Termination of the 2-opt loop -/

theorem twoOptIter_perm (d : ℕ → ℕ → α) (N : ℕ) :
    ∀ (f : ℕ) (t : List ℕ), List.Perm t (List.range N) →
      List.Perm (twoOptIter d N f t) (List.range N) := by
  intro f
  induction f with
  | zero => exact fun t ht => ht
  | succ f ih =>
      intro t ht
      rw [twoOptIter]
      by_cases hs : (sweep d N t).2
      · rw [if_pos hs]
        exact ih _ (sweep_perm_nosym d N t _ ht)
      · rw [if_neg hs]
        exact sweep_perm_nosym d N t _ ht

theorem twoOptIter_le (d : ℕ → ℕ → α) (hsym : ∀ a b, d a b = d b a) (N : ℕ) :
    ∀ (f : ℕ) (t : List ℕ), List.Perm t (List.range N) →
      tourLength d (twoOptIter d N f t) ≤ tourLength d t := by
  intro f
  induction f with
  | zero => exact fun t _ => le_refl _
  | succ f ih =>
      intro t ht
      rw [twoOptIter]
      by_cases hs : (sweep d N t).2
      · rw [if_pos hs]
        exact le_trans (ih _ (sweep_perm_nosym d N t _ ht)) (sweep_le d hsym N t ht)
      · rw [if_neg hs]
        exact sweep_le d hsym N t ht

theorem sweeps_succ (d : ℕ → ℕ → α) (N : ℕ) :
    ∀ (k : ℕ) (t : List ℕ), sweeps d N (k + 1) t = (sweep d N (sweeps d N k t)).1 := by
  intro k
  induction k with
  | zero => exact fun t => rfl
  | succ m ih =>
      intro t
      show sweeps d N (m + 1) (sweep d N t).1 = _
      rw [ih (sweep d N t).1]
      rfl

theorem sweeps_perm (d : ℕ → ℕ → α) (N : ℕ) :
    ∀ (k : ℕ) (t : List ℕ), List.Perm t (List.range N) →
      List.Perm (sweeps d N k t) (List.range N) := by
  intro k
  induction k with
  | zero => exact fun t ht => ht
  | succ m ih =>
      intro t ht
      exact ih _ (sweep_perm_nosym d N t _ ht)

theorem exists_sweep_false (d : ℕ → ℕ → α) (hsym : ∀ a b, d a b = d b a) (N : ℕ)
    (t : List ℕ) (ht : List.Perm t (List.range N)) :
    ∃ k < Nat.factorial N, (sweep d N (sweeps d N k t)).2 = false := by
  by_contra hcon
  push_neg at hcon
  have hflag : ∀ k, k < Nat.factorial N → (sweep d N (sweeps d N k t)).2 = true :=
    fun k hk => Bool.ne_false_iff.mp (hcon k hk)
  have hdec : ∀ k, k < Nat.factorial N →
      tourLength d (sweeps d N (k + 1) t) < tourLength d (sweeps d N k t) := by
    intro k hk
    rw [sweeps_succ]
    exact sweep_lt d hsym N _ (sweeps_perm d N k t ht) (hflag k hk)
  have hmono : ∀ b, b ≤ Nat.factorial N → ∀ a, a < b →
      tourLength d (sweeps d N b t) < tourLength d (sweeps d N a t) := by
    intro b
    induction b with
    | zero => omega
    | succ m ih =>
        intro hb a hab
        rcases Nat.lt_succ_iff_lt_or_eq.mp hab with h | h
        · exact lt_trans (hdec m (by omega)) (ih (by omega) a h)
        · subst h
          exact hdec a (by omega)
  have hinj : Set.InjOn (fun k => sweeps d N k t)
      (Finset.range (Nat.factorial N + 1)) := by
    intro a ha b hb hab
    by_contra hne
    simp only [Finset.coe_range, Set.mem_Iio] at ha hb
    rcases Nat.lt_or_ge a b with h | h
    · exact absurd (congrArg (tourLength d) hab)
        (ne_of_gt (hmono b (by omega) a h))
    · have h2 : b < a := by omega
      exact absurd (congrArg (tourLength d) hab)
        (ne_of_lt (hmono a (by omega) b h2))
  have hmaps : ∀ k ∈ Finset.range (Nat.factorial N + 1),
      sweeps d N k t ∈ permsFinset N := by
    intro k _
    rw [permsFinset, List.mem_toFinset, List.mem_permutations]
    exact sweeps_perm d N k t ht
  have hcard := Finset.card_le_card_of_injOn _ hmaps hinj
  rw [Finset.card_range] at hcard
  have hbound : (permsFinset N).card ≤ Nat.factorial N := by
    calc (permsFinset N).card ≤ ((List.range N).permutations).length :=
          List.toFinset_card_le _
      _ = Nat.factorial (List.range N).length := List.length_permutations _
      _ = Nat.factorial N := by rw [List.length_range]
  omega

theorem twoOptIter_reach (d : ℕ → ℕ → α) (N : ℕ) :
    ∀ (f : ℕ) (t : List ℕ),
      (∃ k < f, (sweep d N (sweeps d N k t)).2 = false) →
      (sweep d N (twoOptIter d N f t)).2 = false := by
  intro f
  induction f with
  | zero =>
      rintro t ⟨k, hk, _⟩
      omega
  | succ f ih =>
      rintro t ⟨k, hk, hflag⟩
      rw [twoOptIter]
      by_cases hs : (sweep d N t).2
      · rw [if_pos hs]
        apply ih
        cases k with
        | zero => exact absurd hflag (by simp [sweeps, hs])
        | succ m =>
            refine ⟨m, by omega, ?_⟩
            exact hflag
      · rw [if_neg hs]
        have := sweep_false d N t (Bool.not_eq_true _ ▸ (by simpa using hs))
        rw [this.1]
        simpa using hs

theorem solve2_perm (d : ℕ → ℕ → α) (N : ℕ) :
    List.Perm (solve2 d N) (List.range N) := by
  rw [solve2]
  by_cases hN : N = 0
  · subst hN
    simp
  · rw [if_neg hN]
    exact twoOptIter_perm d N _ _ (construct2_perm d N)

theorem solve2_sweep_fix (d : ℕ → ℕ → α) (hsym : ∀ a b, d a b = d b a) (N : ℕ) :
    (sweep d N (solve2 d N)).2 = false := by
  rw [solve2]
  by_cases hN : N = 0
  · subst hN
    rfl
  · rw [if_neg hN]
    apply twoOptIter_reach
    exact exists_sweep_false d hsym N _ (construct2_perm d N)

theorem solve2_le_construct (d : ℕ → ℕ → α) (hsym : ∀ a b, d a b = d b a) (N : ℕ)
    (hN : N ≠ 0) :
    tourLength d (solve2 d N) ≤ tourLength d (construct2 d N) := by
  rw [solve2, if_neg hN]
  exact twoOptIter_le d hsym N _ _ (construct2_perm d N)

/-! ## The two nearest-neighbour scans compute the same minimum -/

theorem nearestFold_some (d : ℕ → ℕ → α) (i : ℕ) :
    ∀ (l : List ℕ) (m : α),
      l.foldl (fun acc j => if i = j then acc else
        match acc with
        | none => some (d i j)
        | some m => some (min m (d i j))) (some m) =
      some (((l.filter (fun j => !decide (i = j))).map (d i)).foldl min m) := by
  intro l
  induction l with
  | nil => exact fun m => rfl
  | cons j l ih =>
      intro m
      by_cases hij : i = j
      · rw [List.foldl_cons, if_pos hij,
          List.filter_cons_of_neg (by simp [hij])]
        exact ih m
      · rw [List.foldl_cons, if_neg hij,
          List.filter_cons_of_pos (by simp [hij]), List.map_cons, List.foldl_cons]
        exact ih (min m (d i j))

theorem nearestOpt_eq_match (d : ℕ → ℕ → α) (N i : ℕ) :
    nearestOpt d N i =
      match ((List.range N).filter (fun j => !decide (i = j))).map (d i) with
      | [] => none
      | x :: xs => some (xs.foldl min x) := by
  rw [nearestOpt]
  generalize List.range N = l
  induction l with
  | nil => rfl
  | cons j l ih =>
      by_cases hij : i = j
      · rw [List.foldl_cons, if_pos hij,
          List.filter_cons_of_neg (by simp [hij])]
        exact ih
      · rw [List.foldl_cons, if_neg hij,
          List.filter_cons_of_pos (by simp [hij]), List.map_cons]
        exact nearestFold_some d i l (d i j)

theorem foldl_min_mem : ∀ (xs : List α) (x : α), xs.foldl min x ∈ x :: xs := by
  intro xs
  induction xs with
  | nil => exact fun x => List.mem_singleton.mpr rfl
  | cons y ys ih =>
      intro x
      rw [List.foldl_cons]
      rcases min_choice x y with h | h
      · rcases List.mem_cons.mp (ih (min x y)) with h2 | h2
        · exact List.mem_cons.mpr (Or.inl (by rw [h2, h]))
        · exact List.mem_cons.mpr (Or.inr (List.mem_cons.mpr (Or.inr h2)))
      · rcases List.mem_cons.mp (ih (min x y)) with h2 | h2
        · exact List.mem_cons.mpr (Or.inr (List.mem_cons.mpr (Or.inl (by rw [h2, h]))))
        · exact List.mem_cons.mpr (Or.inr (List.mem_cons.mpr (Or.inr h2)))

theorem foldl_min_le : ∀ (xs : List α) (x y : α), y ∈ x :: xs → xs.foldl min x ≤ y := by
  intro xs
  induction xs with
  | nil =>
      intro x y hy
      rw [List.mem_singleton.mp hy]
      exact le_refl x
  | cons z zs ih =>
      intro x y hy
      rw [List.foldl_cons]
      have hbase : zs.foldl min (min x z) ≤ min x z :=
        ih (min x z) (min x z) (List.mem_cons_self _ _)
      rcases List.mem_cons.mp hy with h1 | h1
      · rw [h1]
        exact le_trans hbase (min_le_left x z)
      · rcases List.mem_cons.mp h1 with h2 | h2
        · rw [h2]
          exact le_trans hbase (min_le_right x z)
        · exact ih (min x z) y (List.mem_cons.mpr (Or.inr h2))

theorem filter_ne_nonempty (N i : ℕ) (hN : 2 ≤ N) :
    (List.range N).filter (fun j => !decide (i = j)) ≠ [] := by
  intro hnil
  have h0 : ∀ j ∈ List.range N, ¬ (!decide (i = j)) = true := by
    intro j hj hcon
    exact absurd (List.mem_filter.mpr ⟨hj, hcon⟩) (by rw [hnil]; simp)
  have h1 := h0 0 (List.mem_range.mpr (by omega))
  have h2 := h0 1 (List.mem_range.mpr (by omega))
  simp at h1 h2
  omega

theorem erase_mem_of (N i j : ℕ) (hj : j < N) (hne : j ≠ i) :
    j ∈ (Finset.range N).erase i :=
  Finset.mem_erase.mpr ⟨hne, Finset.mem_range.mpr hj⟩

/-- Both files' nearest-neighbour computations agree with the spec formula
`min over j ≠ i of entry(i,j)` (with the `N = 1 ↦ 0` convention). -/
theorem nearest_eq_spec (d : ℕ → ℕ → α) (N i : ℕ) (hi : i < N) :
    nearestDist d N i = specNearest d N i ∧ nearestDist3 d N i = specNearest d N i := by
  by_cases hN : N ≤ 1
  · have hi0 : i = 0 := by omega
    have hN1 : N = 1 := by omega
    subst hi0 hN1
    constructor
    · rfl
    · rfl
  · push_neg at hN
    have hfil := filter_ne_nonempty N i (by omega)
    obtain ⟨v, vs, hvl⟩ : ∃ v vs, ((List.range N).filter
        (fun j => !decide (i = j))).map (d i) = v :: vs := by
      cases hc : ((List.range N).filter (fun j => !decide (i = j))).map (d i) with
      | nil =>
          exact absurd (List.map_eq_nil_iff.mp hc) hfil
      | cons v vs => exact ⟨v, vs, rfl⟩
    have hval2 : nearestDist d N i = vs.foldl min v := by
      rw [nearestDist, nearestOpt_eq_match, hvl]
      rfl
    have hval3 : nearestDist3 d N i = vs.foldl min v := by
      rw [nearestDist3, if_neg (by omega), hvl]
    have hnonempty : ((Finset.range N).erase i).Nonempty := by
      refine ⟨if i = 0 then 1 else 0, ?_⟩
      by_cases h0 : i = 0
      · simp [h0]
        omega
      · simp [h0]
        constructor
        · exact fun hc => h0 hc.symm
        · omega
    have hspec : specNearest d N i = ((Finset.range N).erase i).inf' hnonempty (d i) := by
      rw [specNearest, dif_pos hnonempty]
    have hmemiff : ∀ y : α, y ∈ v :: vs ↔
        ∃ j, j ∈ (Finset.range N).erase i ∧ y = d i j := by
      intro y
      rw [← hvl]
      simp only [List.mem_map, List.mem_filter, List.mem_range]
      constructor
      · rintro ⟨j, ⟨hjN, hjne⟩, rfl⟩
        refine ⟨j, erase_mem_of N i j hjN ?_, rfl⟩
        simp at hjne
        exact fun hc => hjne (hc.symm)
      · rintro ⟨j, hjmem, rfl⟩
        obtain ⟨hne, hjN⟩ := Finset.mem_erase.mp hjmem
        exact ⟨j, ⟨Finset.mem_range.mp hjN, by simp; exact fun hc => hne hc.symm⟩, rfl⟩
    have heq : vs.foldl min v = ((Finset.range N).erase i).inf' hnonempty (d i) := by
      apply le_antisymm
      · obtain ⟨j0, hj0, hj0eq⟩ := Finset.exists_mem_eq_inf' hnonempty (d i)
        rw [hj0eq]
        exact foldl_min_le vs v (d i j0) ((hmemiff (d i j0)).mpr ⟨j0, hj0, rfl⟩)
      · obtain ⟨j1, hj1, hj1eq⟩ := (hmemiff (vs.foldl min v)).mp (foldl_min_mem vs v)
        rw [hj1eq]
        exact Finset.inf'_le (d i) hj1
    rw [hval2, hval3, hspec, heq]
    exact ⟨rfl, rfl⟩

theorem list_range_map_sum (n : ℕ) (f : ℕ → α) :
    ((List.range n).map f).sum = ∑ i ∈ Finset.range n, f i := by
  induction n with
  | zero => simp
  | succ m ih =>
      rw [List.range_succ, Finset.sum_range_succ, List.map_append, List.sum_append]
      simp [ih]

/-- Both files' thresholds agree with the spec formula
`1.5 × mean(nearest)`. -/
theorem threshold_eq_spec (d : ℕ → ℕ → α) (N : ℕ) :
    isolationThreshold2 d N = specThreshold d N ∧
      isolationThreshold3 d N = specThreshold d N := by
  by_cases hN : N = 0
  · subst hN
    constructor
    · simp [isolationThreshold2, avgNearest2, specThreshold]
    · simp [isolationThreshold3, avgNearest3, specThreshold]
  · have hsum2 : ((List.range N).map (nearestDist d N)).sum =
        ∑ j ∈ Finset.range N, specNearest d N j := by
      rw [list_range_map_sum]
      apply Finset.sum_congr rfl
      intro j hj
      exact (nearest_eq_spec d N j (Finset.mem_range.mp hj)).1
    have hsum3 : ((List.range N).map (nearestDist3 d N)).sum =
        ∑ j ∈ Finset.range N, specNearest d N j := by
      rw [list_range_map_sum]
      apply Finset.sum_congr rfl
      intro j hj
      exact (nearest_eq_spec d N j (Finset.mem_range.mp hj)).2
    constructor
    · rw [isolationThreshold2, avgNearest2, if_neg hN, hsum2, specThreshold]
      ring
    · rw [isolationThreshold3, avgNearest3, if_neg hN, hsum3, specThreshold]
      ring

theorem two_mem_le_length (l : List ℕ) (a b : ℕ) (ha : a ∈ l) (hb : b ∈ l)
    (hab : a ≠ b) : 2 ≤ l.length := by
  have h1 : b ∈ l.erase a := List.mem_erase_of_ne (fun h => hab h.symm) |>.mpr hb
  have h2 : 1 ≤ (l.erase a).length := List.length_pos.mpr (fun h => by
    rw [h] at h1
    simp at h1)
  have h3 : (l.erase a).length = l.length - 1 := List.length_erase_of_mem ha
  have h4 : 1 ≤ l.length := List.length_pos.mpr (fun h => by
    rw [h] at ha
    simp at ha)
  omega

/-- For a symmetric non-negative matrix and `N ≥ 2`, both endpoints of a
globally closest pair are classified core, so both variants keep at least two
core indices. -/
theorem core_has_two (d : ℕ → ℕ → α) (hsym : ∀ a b, d a b = d b a)
    (hnn : ∀ a b, 0 ≤ d a b) (N : ℕ) (hN : 2 ≤ N) :
    2 ≤ (remainingIndices2 d N).length ∧ 2 ≤ (remainingIndices3 d N).length := by
  classical
  set P := (Finset.range N ×ˢ Finset.range N).filter (fun p => p.1 ≠ p.2) with hPdef
  have hPne : P.Nonempty := by
    refine ⟨(0, 1), ?_⟩
    rw [hPdef, Finset.mem_filter, Finset.mem_product]
    refine ⟨⟨Finset.mem_range.mpr (by omega), Finset.mem_range.mpr (by omega)⟩, by omega⟩
  obtain ⟨p0, hp0, hm⟩ := Finset.exists_mem_eq_inf' hPne (fun p => d p.1 p.2)
  set m := P.inf' hPne (fun p => d p.1 p.2) with hmdef
  obtain ⟨⟨hi0N, hj0N⟩, hne⟩ : (p0.1 ∈ Finset.range N ∧ p0.2 ∈ Finset.range N) ∧
      p0.1 ≠ p0.2 := by
    have := hp0
    rw [hPdef, Finset.mem_filter, Finset.mem_product] at this
    exact this
  have hi0 : p0.1 < N := Finset.mem_range.mp hi0N
  have hj0 : p0.2 < N := Finset.mem_range.mp hj0N
  have hErase : ∀ k, k < N → ((Finset.range N).erase k).Nonempty := by
    intro k hk
    refine ⟨if k = 0 then 1 else 0, ?_⟩
    by_cases h0 : k = 0
    · simp [h0]; omega
    · simp [h0]
      exact ⟨fun hc => h0 hc.symm, by omega⟩
  have hspec_eq : ∀ k, (hk : k < N) →
      specNearest d N k = ((Finset.range N).erase k).inf' (hErase k hk) (d k) := by
    intro k hk
    rw [specNearest, dif_pos (hErase k hk)]
  have key_le : ∀ k, k < N → m ≤ specNearest d N k := by
    intro k hk
    rw [hspec_eq k hk]
    obtain ⟨j, hj, hjeq⟩ := Finset.exists_mem_eq_inf' (hErase k hk) (d k)
    rw [hjeq]
    obtain ⟨hjk, hjN⟩ := Finset.mem_erase.mp hj
    have hmemP : (k, j) ∈ P := by
      rw [hPdef, Finset.mem_filter, Finset.mem_product]
      exact ⟨⟨Finset.mem_range.mpr hk, hjN⟩, fun hc => hjk (hc.symm)⟩
    exact Finset.inf'_le (fun p => d p.1 p.2) hmemP
  have key_i0 : specNearest d N p0.1 ≤ m := by
    rw [hspec_eq p0.1 hi0, hm]
    exact Finset.inf'_le (d p0.1) (Finset.mem_erase.mpr ⟨fun hc => hne hc.symm, hj0N⟩)
  have key_j0 : specNearest d N p0.2 ≤ m := by
    rw [hspec_eq p0.2 hj0, hm, hsym p0.1 p0.2]
    exact Finset.inf'_le (d p0.2) (Finset.mem_erase.mpr ⟨hne, hi0N⟩)
  have hm0 : 0 ≤ m := by
    rw [hm]
    exact hnn p0.1 p0.2
  have hsumge : (N : α) * m ≤ ∑ j ∈ Finset.range N, specNearest d N j := by
    calc (N : α) * m = ∑ _j ∈ Finset.range N, m := by
          rw [Finset.sum_const, Finset.card_range, nsmul_eq_mul]
      _ ≤ ∑ j ∈ Finset.range N, specNearest d N j :=
          Finset.sum_le_sum (fun k hk => key_le k (Finset.mem_range.mp hk))
  have hNpos : (0 : α) < (N : α) := by
    exact_mod_cast Nat.pos_of_ne_zero (by omega)
  have hdiv : m ≤ (∑ j ∈ Finset.range N, specNearest d N j) / (N : α) := by
    rw [le_div_iff₀ hNpos]
    calc m * (N : α) = (N : α) * m := by ring
      _ ≤ _ := hsumge
  have hth : m ≤ specThreshold d N := by
    rw [specThreshold]
    nlinarith [hdiv, hm0, hNpos]
  have hmem : ∀ k, k < N → specNearest d N k ≤ m →
      k ∈ remainingIndices2 d N ∧ k ∈ remainingIndices3 d N := by
    intro k hk hks
    have hle : ¬ (specThreshold d N < specNearest d N k) :=
      not_lt.mpr (le_trans hks hth)
    constructor
    · rw [remainingIndices2, List.mem_filter]
      refine ⟨List.mem_range.mpr hk, ?_⟩
      simp only [Bool.not_eq_eq_eq_not, Bool.not_true, decide_eq_false_iff_not]
      rw [(nearest_eq_spec d N k hk).1, (threshold_eq_spec d N).1]
      exact hle
    · rw [remainingIndices3, List.mem_filter]
      refine ⟨List.mem_range.mpr hk, ?_⟩
      simp only [Bool.not_eq_eq_eq_not, Bool.not_true, decide_eq_false_iff_not]
      rw [(nearest_eq_spec d N k hk).2, (threshold_eq_spec d N).2]
      exact hle
  obtain ⟨hA2, hA3⟩ := hmem p0.1 hi0 key_i0
  obtain ⟨hB2, hB3⟩ := hmem p0.2 hj0 key_j0
  exact ⟨two_mem_le_length _ _ _ hA2 hB2 hne, two_mem_le_length _ _ _ hA3 hB3 hne⟩

/-- When a full triple scan finds nothing (`findImproving = none`, the exit
condition of the `while` loop), every scanned triple satisfies all seven
pattern inequalities. -/
theorem findImproving_none_localopt {R : Type} [LinearOrderedCommRing R]
    (d : ℕ → ℕ → R) (N : ℕ) (t : List ℕ)
    (h : findImproving d N t = none) :
    ∀ i j k, i + 2 ≤ j → j + 2 ≤ k → k < N →
      d0Of d N t i j k ≤ d1Of d N t i j k ∧ d0Of d N t i j k ≤ d2Of d N t i j k ∧
      d0Of d N t i j k ≤ d3Of d N t i j k ∧ d0Of d N t i j k ≤ d4Of d N t i j k ∧
      d0Of d N t i j k ≤ d5Of d N t i j k ∧ d0Of d N t i j k ≤ d6Of d N t i j k ∧
      d0Of d N t i j k ≤ d7Of d N t i j k := by
  intro i j k hij hjk hk
  have hmem : (i, j, k) ∈ triples3 N := (mem_triples3 N i j k).mpr ⟨hij, hjk, hk⟩
  have hfail := List.find?_eq_none.mp h (i, j, k) hmem
  rw [improves, decide_eq_true_iff] at hfail
  have hbase : d0Of d N t i j k ≤ best8 d N t i j k := le_of_not_lt (by exact hfail)
  rw [best8] at hbase
  refine ⟨?_, ?_, ?_, ?_, ?_, ?_, ?_⟩
  · exact le_trans hbase (le_trans (min_le_left _ _) (le_trans (min_le_left _ _)
      (le_trans (min_le_left _ _) (le_trans (min_le_left _ _)
        (le_trans (min_le_left _ _) (le_trans (min_le_left _ _) (min_le_right _ _)))))))
  · exact le_trans hbase (le_trans (min_le_left _ _) (le_trans (min_le_left _ _)
      (le_trans (min_le_left _ _) (le_trans (min_le_left _ _)
        (le_trans (min_le_left _ _) (min_le_right _ _))))))
  · exact le_trans hbase (le_trans (min_le_left _ _) (le_trans (min_le_left _ _)
      (le_trans (min_le_left _ _) (le_trans (min_le_left _ _) (min_le_right _ _)))))
  · exact le_trans hbase (le_trans (min_le_left _ _) (le_trans (min_le_left _ _)
      (le_trans (min_le_left _ _) (min_le_right _ _))))
  · exact le_trans hbase (le_trans (min_le_left _ _) (le_trans (min_le_left _ _)
      (min_le_right _ _)))
  · exact le_trans hbase (le_trans (min_le_left _ _) (min_le_right _ _))
  · exact le_trans hbase (min_le_right _ _)

/-! ## Properties of the Euclidean matrix -/

theorem euclidOf_symm (cities : List (ℝ × ℝ)) (d : ℕ → ℕ → ℝ)
    (hd : EuclidOf cities d) : ∀ a b, d a b = d b a := by
  intro a b
  rw [hd a b, hd b a, sqDist, sqDist]
  ring_nf

theorem euclidOf_nonneg (cities : List (ℝ × ℝ)) (d : ℕ → ℕ → ℝ)
    (hd : EuclidOf cities d) : ∀ a b, 0 ≤ d a b := by
  intro a b
  rw [hd a b]
  exact Real.sqrt_nonneg _

/-! ## Remaining top-level facts about the two solvers -/

theorem solve3_perm (d : ℕ → ℕ → α) (N fuel : ℕ) :
    List.Perm (solve3 d N fuel) (List.range N) := by
  rw [solve3]
  by_cases hN : N = 0
  · subst hN
    simp
  · rw [if_neg hN]
    exact threeOptIter_perm d N fuel _ (construct3_perm d N)

theorem solve2_zero (d : ℕ → ℕ → α) : solve2 d 0 = [] := rfl

theorem solve3_zero (d : ℕ → ℕ → α) (fuel : ℕ) : solve3 d 0 fuel = [] := rfl

theorem remainingIndices2_one (d : ℕ → ℕ → α) : remainingIndices2 d 1 = [0] := by
  rw [remainingIndices2]
  have h0 : nearestDist d 1 0 = 0 := by
    rw [nearestDist, nearestOpt]
    rfl
  have hth : isolationThreshold2 d 1 = 0 := by
    rw [isolationThreshold2, avgNearest2, if_neg (by omega),
      show List.range 1 = [0] from by decide]
    simp [h0]
  show (List.range 1).filter _ = [0]
  rw [show List.range 1 = [0] from by decide, List.filter_cons]
  rw [hth, h0]
  simp

theorem remainingIndices3_one (d : ℕ → ℕ → α) : remainingIndices3 d 1 = [0] := by
  rw [remainingIndices3]
  have h0 : nearestDist3 d 1 0 = 0 := by
    rw [nearestDist3, if_pos (by omega)]
  have hth : isolationThreshold3 d 1 = 0 := by
    rw [isolationThreshold3, avgNearest3, if_neg (by omega),
      show List.range 1 = [0] from by decide]
    simp [h0]
  show (List.range 1).filter _ = [0]
  rw [show List.range 1 = [0] from by decide, List.filter_cons]
  rw [hth, h0]
  simp

theorem solve2_one (d : ℕ → ℕ → α) : solve2 d 1 = [0] := by
  rw [solve2, if_neg (by omega)]
  have hc : construct2 d 1 = [0] := by
    rw [construct2, remainingIndices2_one]
    rfl
  have hsweep : sweep d 1 [0] = ([0], false) := rfl
  show twoOptIter d 1 (Nat.factorial 1) (construct2 d 1) = [0]
  rw [hc]
  show twoOptIter d 1 1 [0] = [0]
  rw [twoOptIter, hsweep]
  rfl

theorem solve3_one (d : ℕ → ℕ → α) (fuel : ℕ) : solve3 d 1 fuel = [0] := by
  rw [solve3, if_neg (by omega)]
  have hc : construct3 d 1 = [0] := by
    rw [construct3, coreReset3, remainingIndices3_one]
    show (match (if ([0] : List ℕ).isEmpty then List.range 1 else [0]) with
      | [] => ([] : List ℕ)
      | c :: rest => insertLoop d (isoReset3 d 1).length
          (insertLoop d rest.length [c] rest) (isoReset3 d 1)) = [0]
    rw [show (if ([0] : List ℕ).isEmpty then List.range 1 else [0]) = [0] from rfl]
    show insertLoop d (isoReset3 d 1).length [0] (isoReset3 d 1) = [0]
    have hiso : isoReset3 d 1 = [] := by
      rw [isoReset3, remainingIndices3_one]
      show (if ([0] : List ℕ).isEmpty then ([] : List ℕ) else isolatedIndices3 d 1) = []
      rw [if_neg (by simp)]
      rw [isolatedIndices3]
      have h0 : nearestDist3 d 1 0 = 0 := by rw [nearestDist3, if_pos (by omega)]
      have hth : isolationThreshold3 d 1 = 0 := by
        rw [isolationThreshold3, avgNearest3, if_neg (by omega),
          show List.range 1 = [0] from by decide]
        simp [h0]
      rw [show List.range 1 = [0] from by decide, List.filter_cons, hth, h0]
      simp
    rw [hiso]
    rfl
  rw [hc]
  cases fuel with
  | zero => rfl
  | succ f =>
      rw [threeOptIter]
      have : findImproving d 1 [0] = none := rfl
      rw [this]

/-! ## Claim theorems -/

/-- C1: for every finite list of N input points, the tour returned by `solve`
(the 2-opt variant `solve.py` as well as the 3-opt variant `solves3.py`, the
latter for every sweep budget) is a permutation of `{0, …, N-1}`: it has
length N, contains no duplicate index and omits none. -/
theorem C1_solve_returns_permutation (cities : List (ℝ × ℝ)) (d : ℕ → ℕ → ℝ)
    (hd : EuclidOf cities d) :
    List.Perm (solve2 d cities.length) (List.range cities.length) ∧
      ∀ fuel, List.Perm (solve3 d cities.length fuel) (List.range cities.length) :=
  ⟨solve2_perm d cities.length, fun fuel => solve3_perm d cities.length fuel⟩

/-- C1 witness at the two-point input `(0,0), (1,0)`. -/
theorem C1_solve_returns_permutation_witness :
    List.Perm
      (solve2 (fun i j => Real.sqrt (sqDist [((0:ℝ),(0:ℝ)), ((1:ℝ),(0:ℝ))] i j)) 2)
      (List.range 2) :=
  (C1_solve_returns_permutation [((0:ℝ),(0:ℝ)), ((1:ℝ),(0:ℝ))] _
    (fun i j => rfl)).1

/-- C2: the empty input returns the empty tour and a single-point input
returns `[0]`, in both variants; these inputs are not errors, and the
insertion and refinement phases are effectively skipped. -/
theorem C2_degenerate_inputs (cities : List (ℝ × ℝ)) (d : ℕ → ℕ → ℝ)
    (hd : EuclidOf cities d) :
    (cities.length = 0 →
      solve2 d cities.length = [] ∧ ∀ fuel, solve3 d cities.length fuel = []) ∧
    (cities.length = 1 →
      solve2 d cities.length = [0] ∧ ∀ fuel, solve3 d cities.length fuel = [0]) := by
  constructor
  · intro h0
    rw [h0]
    exact ⟨solve2_zero d, fun fuel => solve3_zero d fuel⟩
  · intro h1
    rw [h1]
    exact ⟨solve2_one d, fun fuel => solve3_one d fuel⟩

/-- C2 witness at the empty input and the one-point input `(5,7)`. -/
theorem C2_degenerate_inputs_witness :
    (([] : List (ℝ × ℝ)).length = 0 ∧
      solve2 (fun i j => Real.sqrt (sqDist ([] : List (ℝ × ℝ)) i j))
        ([] : List (ℝ × ℝ)).length = []) ∧
    (([((5:ℝ),(7:ℝ))] : List (ℝ × ℝ)).length = 1 ∧
      solve2 (fun i j => Real.sqrt (sqDist [((5:ℝ),(7:ℝ))] i j))
        ([((5:ℝ),(7:ℝ))] : List (ℝ × ℝ)).length = [0]) :=
  ⟨⟨rfl, ((C2_degenerate_inputs ([] : List (ℝ × ℝ)) _ (fun i j => rfl)).1 rfl).1⟩,
   ⟨rfl, ((C2_degenerate_inputs [((5:ℝ),(7:ℝ))] _ (fun i j => rfl)).2 rfl).1⟩⟩

/-- C4: when the 3-opt refinement loop of `solves3.py` exits (a full triple
scan finds no improving pattern, `findImproving = none`), the returned tour
is 3-opt locally optimal over the scanned triples: for every visited triple
`i < j < k`, none of the seven reconnection costs `d1..d7` is strictly below
the current cost `d0`. -/
theorem C4_threeOpt_local_optimality {R : Type} [LinearOrderedCommRing R]
    (d : ℕ → ℕ → R) (N fuel : ℕ) (t0 : List ℕ)
    (hdone : findImproving d N (threeOptIter d N fuel t0) = none) :
    ∀ i j k, i + 2 ≤ j → j + 2 ≤ k → k < N →
      d0Of d N (threeOptIter d N fuel t0) i j k ≤
          d1Of d N (threeOptIter d N fuel t0) i j k ∧
      d0Of d N (threeOptIter d N fuel t0) i j k ≤
          d2Of d N (threeOptIter d N fuel t0) i j k ∧
      d0Of d N (threeOptIter d N fuel t0) i j k ≤
          d3Of d N (threeOptIter d N fuel t0) i j k ∧
      d0Of d N (threeOptIter d N fuel t0) i j k ≤
          d4Of d N (threeOptIter d N fuel t0) i j k ∧
      d0Of d N (threeOptIter d N fuel t0) i j k ≤
          d5Of d N (threeOptIter d N fuel t0) i j k ∧
      d0Of d N (threeOptIter d N fuel t0) i j k ≤
          d6Of d N (threeOptIter d N fuel t0) i j k ∧
      d0Of d N (threeOptIter d N fuel t0) i j k ≤
          d7Of d N (threeOptIter d N fuel t0) i j k :=
  findImproving_none_localopt d N _ hdone

/-- C4 witness: a 5-point all-ones matrix, on which the loop exits at once. -/
theorem C4_threeOpt_local_optimality_witness :
    findImproving (fun _ _ => (1 : ℤ)) 5
        (threeOptIter (fun _ _ => (1 : ℤ)) 5 1 [0, 1, 2, 3, 4]) = none ∧
      d0Of (fun _ _ => (1 : ℤ)) 5
          (threeOptIter (fun _ _ => (1 : ℤ)) 5 1 [0, 1, 2, 3, 4]) 0 2 4 ≤
        d1Of (fun _ _ => (1 : ℤ)) 5
          (threeOptIter (fun _ _ => (1 : ℤ)) 5 1 [0, 1, 2, 3, 4]) 0 2 4 :=
  ⟨by decide,
   (C4_threeOpt_local_optimality (fun _ _ => (1 : ℤ)) 5 1 [0, 1, 2, 3, 4]
      (by decide) 0 2 4 (by decide) (by decide) (by decide)).1⟩

/-- C6: the isolation classifier of both variants computes
`nearest(i) = min over j ≠ i of entry(i,j)` (`0` for `N = 1`), the threshold
`1.5 × mean(nearest)`, and classifies index `i` as isolated iff
`nearest(i) > threshold`, as core otherwise. -/
theorem C6_isolation_classifier (d : ℕ → ℕ → α) (N i : ℕ) (hi : i < N) :
    nearestDist d N i = specNearest d N i ∧
    nearestDist3 d N i = specNearest d N i ∧
    isolationThreshold2 d N = specThreshold d N ∧
    isolationThreshold3 d N = specThreshold d N ∧
    (i ∈ isolatedIndices2 d N ↔ specThreshold d N < specNearest d N i) ∧
    (i ∈ isolatedIndices3 d N ↔ specThreshold d N < specNearest d N i) ∧
    (i ∈ remainingIndices2 d N ↔ ¬ specThreshold d N < specNearest d N i) ∧
    (i ∈ remainingIndices3 d N ↔ ¬ specThreshold d N < specNearest d N i) := by
  obtain ⟨hn2, hn3⟩ := nearest_eq_spec d N i hi
  obtain ⟨ht2, ht3⟩ := threshold_eq_spec d N
  refine ⟨hn2, hn3, ht2, ht3, ?_, ?_, ?_, ?_⟩
  · rw [isolatedIndices2, List.mem_filter]
    simp only [decide_eq_true_iff, List.mem_range]
    rw [ht2, hn2]
    exact ⟨fun h => h.2, fun h => ⟨hi, h⟩⟩
  · rw [isolatedIndices3, List.mem_filter]
    simp only [decide_eq_true_iff, List.mem_range]
    rw [ht3, hn3]
    exact ⟨fun h => h.2, fun h => ⟨hi, h⟩⟩
  · rw [remainingIndices2, List.mem_filter]
    simp only [Bool.not_eq_eq_eq_not, Bool.not_true, decide_eq_false_iff_not,
      List.mem_range]
    rw [ht2, hn2]
    exact ⟨fun h => h.2, fun h => ⟨hi, h⟩⟩
  · rw [remainingIndices3, List.mem_filter]
    simp only [Bool.not_eq_eq_eq_not, Bool.not_true, decide_eq_false_iff_not,
      List.mem_range]
    rw [ht3, hn3]
    exact ⟨fun h => h.2, fun h => ⟨hi, h⟩⟩

/-- C6 witness at a concrete 2-point matrix. -/
theorem C6_isolation_classifier_witness :
    nearestDist (fun _ _ => (1 : ℚ)) 2 0 = specNearest (fun _ _ => (1 : ℚ)) 2 0 ∧
    nearestDist3 (fun _ _ => (1 : ℚ)) 2 0 = specNearest (fun _ _ => (1 : ℚ)) 2 0 ∧
    isolationThreshold2 (fun _ _ => (1 : ℚ)) 2 = specThreshold (fun _ _ => (1 : ℚ)) 2 ∧
    isolationThreshold3 (fun _ _ => (1 : ℚ)) 2 = specThreshold (fun _ _ => (1 : ℚ)) 2 ∧
    (0 ∈ isolatedIndices2 (fun _ _ => (1 : ℚ)) 2 ↔
      specThreshold (fun _ _ => (1 : ℚ)) 2 < specNearest (fun _ _ => (1 : ℚ)) 2 0) ∧
    (0 ∈ isolatedIndices3 (fun _ _ => (1 : ℚ)) 2 ↔
      specThreshold (fun _ _ => (1 : ℚ)) 2 < specNearest (fun _ _ => (1 : ℚ)) 2 0) ∧
    (0 ∈ remainingIndices2 (fun _ _ => (1 : ℚ)) 2 ↔
      ¬ specThreshold (fun _ _ => (1 : ℚ)) 2 < specNearest (fun _ _ => (1 : ℚ)) 2 0) ∧
    (0 ∈ remainingIndices3 (fun _ _ => (1 : ℚ)) 2 ↔
      ¬ specThreshold (fun _ _ => (1 : ℚ)) 2 < specNearest (fun _ _ => (1 : ℚ)) 2 0) :=
  C6_isolation_classifier (fun _ _ => (1 : ℚ)) 2 0 (by decide)

/-- C9: for every input with at least two points, both endpoints of a
globally closest pair are classified core, so both variants keep at least two
core indices; hence the fallback branch of `solve.py` (line 48,
`len(remaining) < 2`) and the reset branch of `solves3.py` (line 35,
`not remaining_indices`) are unreachable for N ≥ 2. -/
theorem C9_at_least_two_core (cities : List (ℝ × ℝ)) (d : ℕ → ℕ → ℝ)
    (hd : EuclidOf cities d) (hN : 2 ≤ cities.length) :
    2 ≤ (remainingIndices2 d cities.length).length ∧
    2 ≤ (remainingIndices3 d cities.length).length ∧
    ¬ ((remainingIndices2 d cities.length).length < 2) ∧
    remainingIndices3 d cities.length ≠ [] := by
  obtain ⟨h2, h3⟩ := core_has_two d (euclidOf_symm cities d hd)
    (euclidOf_nonneg cities d hd) cities.length hN
  refine ⟨h2, h3, by omega, ?_⟩
  intro hnil
  rw [hnil] at h3
  simp at h3

/-- C9 witness at the two-point input `(0,0), (3,4)`. -/
theorem C9_at_least_two_core_witness :
    2 ≤ (remainingIndices2
      (fun i j => Real.sqrt (sqDist [((0:ℝ),(0:ℝ)), ((3:ℝ),(4:ℝ))] i j)) 2).length :=
  (C9_at_least_two_core [((0:ℝ),(0:ℝ)), ((3:ℝ),(4:ℝ))] _ (fun i j => rfl)
    (by decide)).1

/-- C10: whenever the candidate set and the current tour are non-empty, the
insertion scan of both variants returns an actual candidate and an in-bounds
edge position, so the `-1` sentinels never survive to the `insert` call and
the insertion position `best_edge_idx + 1` is within bounds. -/
theorem C10_sentinels_never_survive (d : ℕ → ℕ → α) (tour cands : List ℕ)
    (hc : cands ≠ []) (ht : tour ≠ []) :
    ∃ c p i, bestIns d tour cands = some (c, p, i) ∧ p ∈ cands ∧
      i + 1 ≤ tour.length := by
  obtain ⟨⟨c, p, i⟩, hsome⟩ := Option.isSome_iff_exists.mp (bestIns_some d tour cands hc ht)
  have hvalid := bestIns_valid d tour cands
  rw [hsome] at hvalid
  exact ⟨c, p, i, hsome, hvalid.1, hvalid.2⟩

/-- C10 witness: tour `[0]`, candidates `[1, 2]`. -/
theorem C10_sentinels_never_survive_witness :
    ∃ c p i, bestIns (fun _ _ => (1 : ℚ)) [0] [1, 2] = some (c, p, i) ∧
      p ∈ [1, 2] ∧ i + 1 ≤ ([0] : List ℕ).length :=
  C10_sentinels_never_survive (fun _ _ => (1 : ℚ)) [0] [1, 2] (by decide) (by decide)

/-- C3: after the 2-opt loop of `solve.py` terminates, the returned tour is
2-opt locally optimal: for every scanned position pair `(i, j)` with
`i + 2 ≤ j ≤ N - 1`, replacing the edges `(tour[i],tour[i+1])` and
`(tour[j],tour[(j+1) mod N])` by `(tour[i],tour[j])` and
`(tour[i+1],tour[(j+1) mod N])` does not strictly reduce their cost (hence
the total length). -/
theorem C3_twoOpt_local_optimality (cities : List (ℝ × ℝ)) (d : ℕ → ℕ → ℝ)
    (hd : EuclidOf cities d) (i j : ℕ) (hij : i + 2 ≤ j)
    (hj : j < cities.length) :
    curPair d cities.length (solve2 d cities.length) i j ≤
      newPair d cities.length (solve2 d cities.length) i j := by
  have hfix := solve2_sweep_fix d (euclidOf_symm cities d hd) cities.length
  exact le_of_not_lt
    ((sweep_false d cities.length (solve2 d cities.length) hfix).2 i j hij hj)

/-- C3 witness at the three collinear points `(0,0), (1,0), (2,0)`. -/
theorem C3_twoOpt_local_optimality_witness :
    curPair (fun i j => Real.sqrt (sqDist [((0:ℝ),(0:ℝ)), ((1:ℝ),(0:ℝ)), ((2:ℝ),(0:ℝ))] i j))
        3 (solve2 (fun i j => Real.sqrt
          (sqDist [((0:ℝ),(0:ℝ)), ((1:ℝ),(0:ℝ)), ((2:ℝ),(0:ℝ))] i j)) 3) 0 2 ≤
      newPair (fun i j => Real.sqrt (sqDist [((0:ℝ),(0:ℝ)), ((1:ℝ),(0:ℝ)), ((2:ℝ),(0:ℝ))] i j))
        3 (solve2 (fun i j => Real.sqrt
          (sqDist [((0:ℝ),(0:ℝ)), ((1:ℝ),(0:ℝ)), ((2:ℝ),(0:ℝ))] i j)) 3) 0 2 :=
  C3_twoOpt_local_optimality [((0:ℝ),(0:ℝ)), ((1:ℝ),(0:ℝ)), ((2:ℝ),(0:ℝ))] _
    (fun i j => rfl) 0 2 (by decide) (by decide)

/-! ## Transfer of the engine along an order-embedding ring hom

The engine consumes matrix entries only through `+`, `-`, `min`, `<` and `=`,
so every ordered-ring embedding commutes with it.  This is how the ℝ-valued
runs on the concrete planar instances are computed exactly: their matrices
are images of integer matrices, and at ℤ the kernel evaluates. -/

section MapLemmas

variable {α β : Type} [LinearOrderedCommRing α] [LinearOrderedCommRing β]
variable (f : α →+* β)

theorem map_min_hom (hf : StrictMono f) (a b : α) : f (min a b) = min (f a) (f b) :=
  hf.monotone.map_min

theorem insCost_map (d : ℕ → ℕ → α) (tour : List ℕ) (p i : ℕ) :
    insCost (fun a b => f (d a b)) tour p i = f (insCost d tour p i) := by
  rw [insCost, insCost, map_sub, map_add]

theorem updBest_map (hf : StrictMono f) (d : ℕ → ℕ → α) (tour : List ℕ) (p : ℕ)
    (st : Option (α × ℕ × ℕ)) (i : ℕ) :
    updBest (fun a b => f (d a b)) tour p
        (st.map (fun s => (f s.1, s.2.1, s.2.2))) i =
      (updBest d tour p st i).map (fun s => (f s.1, s.2.1, s.2.2)) := by
  cases st with
  | none => simp [updBest, insCost_map f]
  | some s =>
      obtain ⟨b, bp, bi⟩ := s
      by_cases hc : insCost d tour p i < b
      · have hc2 : insCost (fun a b => f (d a b)) tour p i < f b := by
          rw [insCost_map f]
          exact hf hc
        show (if insCost (fun a b => f (d a b)) tour p i < f b
              then some (insCost (fun a b => f (d a b)) tour p i, p, i)
              else some (f b, bp, bi)) =
            Option.map (fun s => (f s.1, s.2.1, s.2.2))
              (if insCost d tour p i < b then some (insCost d tour p i, p, i)
               else some (b, bp, bi))
        rw [if_pos hc, if_pos hc2, insCost_map f]
        rfl
      · have hc2 : ¬ insCost (fun a b => f (d a b)) tour p i < f b := by
          rw [insCost_map f]
          exact fun hcon => hc (hf.lt_iff_lt.mp hcon)
        show (if insCost (fun a b => f (d a b)) tour p i < f b
              then some (insCost (fun a b => f (d a b)) tour p i, p, i)
              else some (f b, bp, bi)) =
            Option.map (fun s => (f s.1, s.2.1, s.2.2))
              (if insCost d tour p i < b then some (insCost d tour p i, p, i)
               else some (b, bp, bi))
        rw [if_neg hc, if_neg hc2]
        rfl

theorem bestIns_map (hf : StrictMono f) (d : ℕ → ℕ → α) (tour : List ℕ)
    (cands : List ℕ) :
    bestIns (fun a b => f (d a b)) tour cands =
      (bestIns d tour cands).map (fun s => (f s.1, s.2.1, s.2.2)) := by
  rw [bestIns, bestIns]
  have inner : ∀ (p : ℕ) (l : List ℕ) (st : Option (α × ℕ × ℕ)),
      l.foldl (updBest (fun a b => f (d a b)) tour p)
          (st.map (fun s => (f s.1, s.2.1, s.2.2))) =
        (l.foldl (updBest d tour p) st).map (fun s => (f s.1, s.2.1, s.2.2)) := by
    intro p l
    induction l with
    | nil => exact fun st => rfl
    | cons i l ih =>
        intro st
        rw [List.foldl_cons, List.foldl_cons, updBest_map f hf]
        exact ih _
  have outer : ∀ (cs : List ℕ) (st : Option (α × ℕ × ℕ)),
      cs.foldl (fun st p => (List.range tour.length).foldl
          (updBest (fun a b => f (d a b)) tour p) st)
          (st.map (fun s => (f s.1, s.2.1, s.2.2))) =
        (cs.foldl (fun st p => (List.range tour.length).foldl
          (updBest d tour p) st) st).map (fun s => (f s.1, s.2.1, s.2.2)) := by
    intro cs
    induction cs with
    | nil => exact fun st => rfl
    | cons p cs ih =>
        intro st
        rw [List.foldl_cons, List.foldl_cons, inner p]
        exact ih _
  exact outer cands none

theorem insertLoop_map (hf : StrictMono f) (d : ℕ → ℕ → α) :
    ∀ (fuel : ℕ) (tour cands : List ℕ),
      insertLoop (fun a b => f (d a b)) fuel tour cands =
        insertLoop d fuel tour cands := by
  intro fuel
  induction fuel with
  | zero => exact fun _ _ => rfl
  | succ fu ih =>
      intro tour cands
      rw [insertLoop, insertLoop]
      by_cases hemp : cands.isEmpty
      · simp [hemp]
      · simp only [hemp, if_false]
        rw [bestIns_map f hf]
        cases hbi : bestIns d tour cands with
        | none => rfl
        | some s =>
            obtain ⟨c, p, i⟩ := s
            exact ih _ _

theorem buildTour2_map (hf : StrictMono f) (d : ℕ → ℕ → α) (core iso : List ℕ)
    (N : ℕ) :
    buildTour2 (fun a b => f (d a b)) core iso N = buildTour2 d core iso N := by
  cases core with
  | nil => rfl
  | cons c rest =>
      cases rest with
      | nil => rfl
      | cons c2 rest2 =>
          show insertLoop (fun a b => f (d a b)) iso.length
              (insertLoop (fun a b => f (d a b)) (c2 :: rest2).length [c]
                (c2 :: rest2)) iso = _
          rw [insertLoop_map f hf, insertLoop_map f hf]
          rfl

theorem buildTour3_map (hf : StrictMono f) (d : ℕ → ℕ → α) (core iso : List ℕ) :
    buildTour3 (fun a b => f (d a b)) core iso = buildTour3 d core iso := by
  cases core with
  | nil => rfl
  | cons c rest =>
      show insertLoop (fun a b => f (d a b)) iso.length
          (insertLoop (fun a b => f (d a b)) rest.length [c] rest) iso = _
      rw [insertLoop_map f hf, insertLoop_map f hf]
      rfl

theorem pathFrom_map (d : ℕ → ℕ → α) :
    ∀ (l : List ℕ) (a : ℕ),
      pathFrom (fun a b => f (d a b)) a l = f (pathFrom d a l) := by
  intro l
  induction l with
  | nil => intro a; simp [pathFrom]
  | cons b t ih => intro a; simp [pathFrom, ih b, map_add]

theorem tourLength_map (d : ℕ → ℕ → α) (t : List ℕ) :
    tourLength (fun a b => f (d a b)) t = f (tourLength d t) := by
  cases t with
  | nil => simp [tourLength]
  | cons a l => rw [tourLength, tourLength, pathFrom_map f]

theorem d0Of_map (d : ℕ → ℕ → α) (N : ℕ) (t : List ℕ) (i j k : ℕ) :
    d0Of (fun a b => f (d a b)) N t i j k = f (d0Of d N t i j k) := by
  rw [d0Of, d0Of, map_add, map_add]

theorem d1Of_map (d : ℕ → ℕ → α) (N : ℕ) (t : List ℕ) (i j k : ℕ) :
    d1Of (fun a b => f (d a b)) N t i j k = f (d1Of d N t i j k) := by
  rw [d1Of, d1Of, map_add, map_add]

theorem d2Of_map (d : ℕ → ℕ → α) (N : ℕ) (t : List ℕ) (i j k : ℕ) :
    d2Of (fun a b => f (d a b)) N t i j k = f (d2Of d N t i j k) := by
  rw [d2Of, d2Of, map_add, map_add]

theorem d3Of_map (d : ℕ → ℕ → α) (N : ℕ) (t : List ℕ) (i j k : ℕ) :
    d3Of (fun a b => f (d a b)) N t i j k = f (d3Of d N t i j k) := by
  rw [d3Of, d3Of, map_add, map_add]

theorem d4Of_map (d : ℕ → ℕ → α) (N : ℕ) (t : List ℕ) (i j k : ℕ) :
    d4Of (fun a b => f (d a b)) N t i j k = f (d4Of d N t i j k) := by
  rw [d4Of, d4Of, map_add, map_add]

theorem d5Of_map (d : ℕ → ℕ → α) (N : ℕ) (t : List ℕ) (i j k : ℕ) :
    d5Of (fun a b => f (d a b)) N t i j k = f (d5Of d N t i j k) := by
  rw [d5Of, d5Of, map_add, map_add]

theorem d6Of_map (d : ℕ → ℕ → α) (N : ℕ) (t : List ℕ) (i j k : ℕ) :
    d6Of (fun a b => f (d a b)) N t i j k = f (d6Of d N t i j k) := by
  rw [d6Of, d6Of, map_add, map_add]

theorem d7Of_map (d : ℕ → ℕ → α) (N : ℕ) (t : List ℕ) (i j k : ℕ) :
    d7Of (fun a b => f (d a b)) N t i j k = f (d7Of d N t i j k) := by
  rw [d7Of, d7Of, map_add, map_add]

theorem best8_map (hf : StrictMono f) (d : ℕ → ℕ → α) (N : ℕ) (t : List ℕ)
    (i j k : ℕ) :
    best8 (fun a b => f (d a b)) N t i j k = f (best8 d N t i j k) := by
  rw [best8, best8, d0Of_map f, d1Of_map f, d2Of_map f, d3Of_map f, d4Of_map f,
    d5Of_map f, d6Of_map f, d7Of_map f, map_min_hom f hf, map_min_hom f hf,
    map_min_hom f hf, map_min_hom f hf, map_min_hom f hf, map_min_hom f hf,
    map_min_hom f hf]

theorem improves_map (hf : StrictMono f) (d : ℕ → ℕ → α) (N : ℕ) (t : List ℕ)
    (tr : ℕ × ℕ × ℕ) :
    improves (fun a b => f (d a b)) N t tr = improves d N t tr := by
  rw [improves, improves, best8_map f hf, d0Of_map f]
  exact decide_eq_decide.mpr hf.lt_iff_lt

theorem findImproving_map (hf : StrictMono f) (d : ℕ → ℕ → α) (N : ℕ)
    (t : List ℕ) :
    findImproving (fun a b => f (d a b)) N t = findImproving d N t := by
  rw [findImproving, findImproving]
  congr 1
  funext tr
  exact improves_map f hf d N t tr

theorem apply3_map (hf : StrictMono f) (d : ℕ → ℕ → α) (N : ℕ) (t : List ℕ)
    (i j k : ℕ) :
    apply3 (fun a b => f (d a b)) N t i j k = apply3 d N t i j k := by
  have hiff : ∀ x y : α, (f x = f y) ↔ x = y := fun x y => hf.injective.eq_iff
  simp only [apply3, best8_map f hf, d1Of_map f, d2Of_map f, d3Of_map f,
    d4Of_map f, d5Of_map f, d6Of_map f, d7Of_map f, hiff]

theorem threeOptIter_map (hf : StrictMono f) (d : ℕ → ℕ → α) (N : ℕ) :
    ∀ (fuel : ℕ) (t : List ℕ),
      threeOptIter (fun a b => f (d a b)) N fuel t = threeOptIter d N fuel t := by
  intro fuel
  induction fuel with
  | zero => exact fun t => rfl
  | succ fu ih =>
      intro t
      rw [threeOptIter, threeOptIter, findImproving_map f hf]
      cases findImproving d N t with
      | none => rfl
      | some tr =>
          obtain ⟨i, j, k⟩ := tr
          show threeOptIter (fun a b => f (d a b)) N fu
              (apply3 (fun a b => f (d a b)) N t i j k) =
            threeOptIter d N fu (apply3 d N t i j k)
          rw [apply3_map f hf]
          exact ih _

theorem foldl_min_map (hf : StrictMono f) :
    ∀ (xs : List α) (x : α), (xs.map f).foldl min (f x) = f (xs.foldl min x) := by
  intro xs
  induction xs with
  | nil => exact fun x => rfl
  | cons y ys ih =>
      intro x
      rw [List.map_cons, List.foldl_cons, List.foldl_cons, ← map_min_hom f hf]
      exact ih _

theorem nearestOpt_map (hf : StrictMono f) (d : ℕ → ℕ → α) (N i : ℕ) :
    nearestOpt (fun a b => f (d a b)) N i = (nearestOpt d N i).map f := by
  have H : ∀ (acc : Option α) (j : ℕ),
      (if i = j then Option.map f acc else
        match Option.map f acc with
        | none => some (f (d i j))
        | some m => some (min m (f (d i j)))) =
      Option.map f (if i = j then acc else
        match acc with
        | none => some (d i j)
        | some m => some (min m (d i j))) := by
    intro acc j
    by_cases hx : i = j
    · rw [if_pos hx, if_pos hx]
    · rw [if_neg hx, if_neg hx]
      cases acc with
      | none => rfl
      | some m =>
          show some (min (f m) (f (d i j))) = Option.map f (some (min m (d i j)))
          rw [← map_min_hom f hf]
          rfl
  exact List.foldl_hom (Option.map f)
    (fun acc j => if i = j then acc else
      match acc with
      | none => some (d i j)
      | some m => some (min m (d i j)))
    (fun acc j => if i = j then acc else
      match acc with
      | none => some (f (d i j))
      | some m => some (min m (f (d i j))))
    (List.range N) none H

theorem nearestDist_map (hf : StrictMono f) (d : ℕ → ℕ → α) (N i : ℕ) :
    nearestDist (fun a b => f (d a b)) N i = f (nearestDist d N i) := by
  rw [nearestDist, nearestDist, nearestOpt_map f hf]
  cases nearestOpt d N i with
  | none => exact (map_zero f).symm
  | some m => rfl

theorem nearestDist3_map (hf : StrictMono f) (d : ℕ → ℕ → α) (N i : ℕ) :
    nearestDist3 (fun a b => f (d a b)) N i = f (nearestDist3 d N i) := by
  rw [nearestDist3, nearestDist3]
  by_cases hN : N ≤ 1
  · rw [if_pos hN, if_pos hN, map_zero]
  · rw [if_neg hN, if_neg hN]
    have hmap : ((List.range N).filter (fun j => !decide (i = j))).map (fun b => f (d i b))
        = (((List.range N).filter (fun j => !decide (i = j))).map (d i)).map f := by
      rw [List.map_map]
      rfl
    rw [hmap]
    cases ((List.range N).filter (fun j => !decide (i = j))).map (d i) with
    | nil => exact (map_zero f).symm
    | cons x xs =>
        show (xs.map f).foldl min (f x) = f (xs.foldl min x)
        exact foldl_min_map f hf xs x

end MapLemmas


/-! ## Transfer of the classifier and pipeline along an ordered-field
embedding

With these, a run of the ℝ-valued pipeline on a matrix that is the image of
an integer matrix reduces to a run at ℤ, which the kernel evaluates. -/

section FieldMapLemmas

variable {α β : Type} [LinearOrderedField α] [LinearOrderedField β]
variable (f : α →+* β)

theorem avgNearest2_map (hf : StrictMono f) (d : ℕ → ℕ → α) (N : ℕ) :
    avgNearest2 (fun a b => f (d a b)) N = f (avgNearest2 d N) := by
  rw [avgNearest2, avgNearest2]
  by_cases hN : N = 0
  · rw [if_pos hN, if_pos hN, map_zero]
  · rw [if_neg hN, if_neg hN, map_div₀, map_natCast]
    congr 1
    rw [map_list_sum f, List.map_map]
    exact congrArg List.sum
      (List.map_congr_left (fun j _ => nearestDist_map f hf d N j))

theorem isolationThreshold2_map (hf : StrictMono f) (d : ℕ → ℕ → α) (N : ℕ) :
    isolationThreshold2 (fun a b => f (d a b)) N = f (isolationThreshold2 d N) := by
  rw [isolationThreshold2, isolationThreshold2, map_mul, avgNearest2_map f hf,
    map_div₀, map_ofNat, map_ofNat]

theorem isolatedIndices2_map (hf : StrictMono f) (d : ℕ → ℕ → α) (N : ℕ) :
    isolatedIndices2 (fun a b => f (d a b)) N = isolatedIndices2 d N := by
  rw [isolatedIndices2, isolatedIndices2]
  refine List.filter_congr ?_
  intro i _
  rw [decide_eq_decide, isolationThreshold2_map f hf, nearestDist_map f hf]
  exact hf.lt_iff_lt

theorem remainingIndices2_map (hf : StrictMono f) (d : ℕ → ℕ → α) (N : ℕ) :
    remainingIndices2 (fun a b => f (d a b)) N = remainingIndices2 d N := by
  rw [remainingIndices2, remainingIndices2]
  refine List.filter_congr ?_
  intro i _
  have h : decide (isolationThreshold2 (fun a b => f (d a b)) N
      < nearestDist (fun a b => f (d a b)) N i)
      = decide (isolationThreshold2 d N < nearestDist d N i) := by
    rw [decide_eq_decide, isolationThreshold2_map f hf, nearestDist_map f hf]
    exact hf.lt_iff_lt
  rw [h]

theorem avgNearest3_map (hf : StrictMono f) (d : ℕ → ℕ → α) (N : ℕ) :
    avgNearest3 (fun a b => f (d a b)) N = f (avgNearest3 d N) := by
  rw [avgNearest3, avgNearest3]
  by_cases hN : N = 0
  · rw [if_pos hN, if_pos hN, map_zero]
  · rw [if_neg hN, if_neg hN, map_div₀, map_natCast]
    congr 1
    rw [map_list_sum f, List.map_map]
    exact congrArg List.sum
      (List.map_congr_left (fun j _ => nearestDist3_map f hf d N j))

theorem isolationThreshold3_map (hf : StrictMono f) (d : ℕ → ℕ → α) (N : ℕ) :
    isolationThreshold3 (fun a b => f (d a b)) N = f (isolationThreshold3 d N) := by
  rw [isolationThreshold3, isolationThreshold3, map_mul, avgNearest3_map f hf,
    map_div₀, map_ofNat, map_ofNat]

theorem isolatedIndices3_map (hf : StrictMono f) (d : ℕ → ℕ → α) (N : ℕ) :
    isolatedIndices3 (fun a b => f (d a b)) N = isolatedIndices3 d N := by
  rw [isolatedIndices3, isolatedIndices3]
  refine List.filter_congr ?_
  intro i _
  rw [decide_eq_decide, isolationThreshold3_map f hf, nearestDist3_map f hf]
  exact hf.lt_iff_lt

theorem remainingIndices3_map (hf : StrictMono f) (d : ℕ → ℕ → α) (N : ℕ) :
    remainingIndices3 (fun a b => f (d a b)) N = remainingIndices3 d N := by
  rw [remainingIndices3, remainingIndices3]
  refine List.filter_congr ?_
  intro i _
  have h : decide (isolationThreshold3 (fun a b => f (d a b)) N
      < nearestDist3 (fun a b => f (d a b)) N i)
      = decide (isolationThreshold3 d N < nearestDist3 d N i) := by
    rw [decide_eq_decide, isolationThreshold3_map f hf, nearestDist3_map f hf]
    exact hf.lt_iff_lt
  rw [h]

theorem construct2_map (hf : StrictMono f) (d : ℕ → ℕ → α) (N : ℕ) :
    construct2 (fun a b => f (d a b)) N = construct2 d N := by
  rw [construct2, construct2, isolatedIndices2_map f hf,
    remainingIndices2_map f hf, buildTour2_map f hf]

theorem coreReset3_map (hf : StrictMono f) (d : ℕ → ℕ → α) (N : ℕ) :
    coreReset3 (fun a b => f (d a b)) N = coreReset3 d N := by
  rw [coreReset3, coreReset3, remainingIndices3_map f hf]

theorem isoReset3_map (hf : StrictMono f) (d : ℕ → ℕ → α) (N : ℕ) :
    isoReset3 (fun a b => f (d a b)) N = isoReset3 d N := by
  rw [isoReset3, isoReset3, remainingIndices3_map f hf, isolatedIndices3_map f hf]

theorem construct3_map (hf : StrictMono f) (d : ℕ → ℕ → α) (N : ℕ) :
    construct3 (fun a b => f (d a b)) N = construct3 d N := by
  rw [construct3, construct3, coreReset3_map f hf, isoReset3_map f hf,
    buildTour3_map f hf]

end FieldMapLemmas

/-! ## The cast embeddings used for evaluation -/

theorem intCastQ_strictMono : StrictMono (⇑(Int.castRingHom ℚ)) := by
  intro a b h
  show ((a : ℤ) : ℚ) < ((b : ℤ) : ℚ)
  exact_mod_cast h

theorem intCastR_strictMono : StrictMono (⇑(Int.castRingHom ℝ)) := by
  intro a b h
  show ((a : ℤ) : ℝ) < ((b : ℤ) : ℝ)
  exact_mod_cast h

theorem ratCastR_strictMono : StrictMono (⇑(Rat.castHom ℝ)) := by
  intro a b h
  show ((a : ℚ) : ℝ) < ((b : ℚ) : ℝ)
  exact_mod_cast h

theorem intCast_list_sum (l : List ℤ) :
    ((l.sum : ℤ) : ℚ) = (l.map (fun z : ℤ => (z : ℚ))).sum :=
  map_list_sum (Int.castRingHom ℚ) l

/-! ## The classifier on an integer matrix, as a kernel-decidable predicate

Over ℚ the threshold comparison `avg * (3/2) < nearest(i)` divides; cleared
of denominators it is the integer comparison `3 * Σ < nearest(i) * 2N`. -/

theorem iso2_iff (mz : ℕ → ℕ → ℤ) (N : ℕ) (hN : 0 < N) (i : ℕ) :
    (isolationThreshold2 (fun a b => ((mz a b : ℤ) : ℚ)) N
      < nearestDist (fun a b => ((mz a b : ℤ) : ℚ)) N i)
    ↔ 3 * ((List.range N).map (nearestDist mz N)).sum
        < nearestDist mz N i * (2 * (N : ℤ)) := by
  have hnd : ∀ j, nearestDist (fun a b => ((mz a b : ℤ) : ℚ)) N j
      = ((nearestDist mz N j : ℤ) : ℚ) :=
    fun j => nearestDist_map (Int.castRingHom ℚ) intCastQ_strictMono mz N j
  rw [isolationThreshold2, avgNearest2, if_neg hN.ne', hnd i]
  have hsum : ((List.range N).map (nearestDist (fun a b => ((mz a b : ℤ) : ℚ)) N)).sum
      = ((((List.range N).map (nearestDist mz N)).sum : ℤ) : ℚ) := by
    rw [List.map_congr_left (fun j _ => hnd j), intCast_list_sum, List.map_map]
    rfl
  rw [hsum]
  have h2 : ((((List.range N).map (nearestDist mz N)).sum : ℤ) : ℚ) / (N : ℚ) * (3 / 2)
      = (3 * ((((List.range N).map (nearestDist mz N)).sum : ℤ) : ℚ)) / (2 * (N : ℚ)) := by
    field_simp
    ring
  have hNq : (0 : ℚ) < 2 * (N : ℚ) := by positivity
  rw [h2, div_lt_iff₀ hNq]
  constructor <;> intro h <;> exact_mod_cast h

theorem isolated2_int (mz : ℕ → ℕ → ℤ) (N : ℕ) (hN : 0 < N) :
    isolatedIndices2 (fun a b => ((mz a b : ℤ) : ℚ)) N =
      (List.range N).filter (fun i => decide
        (3 * ((List.range N).map (nearestDist mz N)).sum
          < nearestDist mz N i * (2 * (N : ℤ)))) := by
  rw [isolatedIndices2]
  exact List.filter_congr (fun i _ => decide_eq_decide.mpr (iso2_iff mz N hN i))

theorem remaining2_int (mz : ℕ → ℕ → ℤ) (N : ℕ) (hN : 0 < N) :
    remainingIndices2 (fun a b => ((mz a b : ℤ) : ℚ)) N =
      (List.range N).filter (fun i => !decide
        (3 * ((List.range N).map (nearestDist mz N)).sum
          < nearestDist mz N i * (2 * (N : ℤ)))) := by
  rw [remainingIndices2]
  exact List.filter_congr (fun i _ =>
    congrArg (fun b => !b) (decide_eq_decide.mpr (iso2_iff mz N hN i)))

theorem iso3_iff (mz : ℕ → ℕ → ℤ) (N : ℕ) (hN : 0 < N) (i : ℕ) :
    (isolationThreshold3 (fun a b => ((mz a b : ℤ) : ℚ)) N
      < nearestDist3 (fun a b => ((mz a b : ℤ) : ℚ)) N i)
    ↔ 3 * ((List.range N).map (nearestDist3 mz N)).sum
        < nearestDist3 mz N i * (2 * (N : ℤ)) := by
  have hnd : ∀ j, nearestDist3 (fun a b => ((mz a b : ℤ) : ℚ)) N j
      = ((nearestDist3 mz N j : ℤ) : ℚ) :=
    fun j => nearestDist3_map (Int.castRingHom ℚ) intCastQ_strictMono mz N j
  rw [isolationThreshold3, avgNearest3, if_neg hN.ne', hnd i]
  have hsum : ((List.range N).map (nearestDist3 (fun a b => ((mz a b : ℤ) : ℚ)) N)).sum
      = ((((List.range N).map (nearestDist3 mz N)).sum : ℤ) : ℚ) := by
    rw [List.map_congr_left (fun j _ => hnd j), intCast_list_sum, List.map_map]
    rfl
  rw [hsum]
  have h2 : ((((List.range N).map (nearestDist3 mz N)).sum : ℤ) : ℚ) / (N : ℚ) * (3 / 2)
      = (3 * ((((List.range N).map (nearestDist3 mz N)).sum : ℤ) : ℚ)) / (2 * (N : ℚ)) := by
    field_simp
    ring
  have hNq : (0 : ℚ) < 2 * (N : ℚ) := by positivity
  rw [h2, div_lt_iff₀ hNq]
  constructor <;> intro h <;> exact_mod_cast h

theorem isolated3_int (mz : ℕ → ℕ → ℤ) (N : ℕ) (hN : 0 < N) :
    isolatedIndices3 (fun a b => ((mz a b : ℤ) : ℚ)) N =
      (List.range N).filter (fun i => decide
        (3 * ((List.range N).map (nearestDist3 mz N)).sum
          < nearestDist3 mz N i * (2 * (N : ℤ)))) := by
  rw [isolatedIndices3]
  exact List.filter_congr (fun i _ => decide_eq_decide.mpr (iso3_iff mz N hN i))

theorem remaining3_int (mz : ℕ → ℕ → ℤ) (N : ℕ) (hN : 0 < N) :
    remainingIndices3 (fun a b => ((mz a b : ℤ) : ℚ)) N =
      (List.range N).filter (fun i => !decide
        (3 * ((List.range N).map (nearestDist3 mz N)).sum
          < nearestDist3 mz N i * (2 * (N : ℤ)))) := by
  rw [remainingIndices3]
  exact List.filter_congr (fun i _ =>
    congrArg (fun b => !b) (decide_eq_decide.mpr (iso3_iff mz N hN i)))

/-! ## Square roots of the concrete planar instances are integers -/

theorem sqrt_eval (x q : ℝ) (hq : 0 ≤ q) (h : x = q ^ 2) : Real.sqrt x = q := by
  rw [h]
  exact Real.sqrt_sq hq

theorem dC7_eval (i j : ℕ) :
    Real.sqrt (sqDist citiesC7 i j) = ((mzC7 i j : ℤ) : ℝ) := by
  have hcl : ∀ k : ℕ, citiesC7.getD k (0, 0) = citiesC7.getD (min k 5) (0, 0) := by
    intro k
    by_cases hk : k < 5
    · rw [Nat.min_def, if_pos (by omega)]
    · rw [List.getD_eq_default _ _ (by simp [citiesC7]; omega),
        List.getD_eq_default _ _ (by simp [citiesC7]; omega)]
  have hs : sqDist citiesC7 i j = sqDist citiesC7 (min i 5) (min j 5) := by
    rw [sqDist, sqDist, hcl i, hcl j]
  have hz : mzC7 i j = mat tblC7 (min i 5) (min j 5) := rfl
  rw [hs, hz]
  have hi : min i 5 ≤ 5 := min_le_right _ _
  have hj : min j 5 ≤ 5 := min_le_right _ _
  revert hi hj
  generalize min i 5 = a
  generalize min j 5 = b
  intro hi hj
  interval_cases a <;> interval_cases b <;>
    exact sqrt_eval _ _ (by norm_num [mat, tblC7])
      (by norm_num [sqDist, citiesC7, mat, tblC7])

theorem dC5_eval (i j : ℕ) :
    Real.sqrt (sqDist citiesC5 i j) = ((mzC5 i j : ℤ) : ℝ) := by
  have hcl : ∀ k : ℕ, citiesC5.getD k (0, 0) = citiesC5.getD (min k 6) (0, 0) := by
    intro k
    by_cases hk : k < 6
    · rw [Nat.min_def, if_pos (by omega)]
    · rw [List.getD_eq_default _ _ (by simp [citiesC5]; omega),
        List.getD_eq_default _ _ (by simp [citiesC5]; omega)]
  have hs : sqDist citiesC5 i j = sqDist citiesC5 (min i 6) (min j 6) := by
    rw [sqDist, sqDist, hcl i, hcl j]
  have hz : mzC5 i j = mat tblC5 (min i 6) (min j 6) := rfl
  rw [hs, hz]
  have hi : min i 6 ≤ 6 := min_le_right _ _
  have hj : min j 6 ≤ 6 := min_le_right _ _
  revert hi hj
  generalize min i 6 = a
  generalize min j 6 = b
  intro hi hj
  interval_cases a <;> interval_cases b <;>
    exact sqrt_eval _ _ (by norm_num [mat, tblC5])
      (by norm_num [sqDist, citiesC5, mat, tblC5])

theorem dC8_eval (i j : ℕ) :
    Real.sqrt (sqDist citiesC8 i j) = ((mzC8 i j : ℤ) : ℝ) := by
  have hcl : ∀ k : ℕ, citiesC8.getD k (0, 0) = citiesC8.getD (min k 7) (0, 0) := by
    intro k
    by_cases hk : k < 7
    · rw [Nat.min_def, if_pos (by omega)]
    · rw [List.getD_eq_default _ _ (by simp [citiesC8]; omega),
        List.getD_eq_default _ _ (by simp [citiesC8]; omega)]
  have hs : sqDist citiesC8 i j = sqDist citiesC8 (min i 7) (min j 7) := by
    rw [sqDist, sqDist, hcl i, hcl j]
  have hz : mzC8 i j = mat tblC8 (min i 7) (min j 7) := rfl
  rw [hs, hz]
  have hi : min i 7 ≤ 7 := min_le_right _ _
  have hj : min j 7 ≤ 7 := min_le_right _ _
  revert hi hj
  generalize min i 7 = a
  generalize min j 7 = b
  intro hi hj
  interval_cases a <;> interval_cases b <;>
    exact sqrt_eval _ _ (by norm_num [mat, tblC8])
      (by norm_num [sqDist, citiesC8, mat, tblC8])

/-! ## Evaluation of the pipeline on the C7 instance -/

theorem remC7_eval : remainingIndices2 mqC7 5 = [0, 1, 2, 4] := by
  show remainingIndices2 (fun a b => ((mzC7 a b : ℤ) : ℚ)) 5 = [0, 1, 2, 4]
  rw [remaining2_int mzC7 5 (by norm_num)]
  decide

theorem isoC7_eval : isolatedIndices2 mqC7 5 = [3] := by
  show isolatedIndices2 (fun a b => ((mzC7 a b : ℤ) : ℚ)) 5 = [3]
  rw [isolated2_int mzC7 5 (by norm_num)]
  decide

theorem constructC7_rat : construct2 mqC7 5 = [0, 2, 3, 1, 4] := by
  rw [construct2, remC7_eval, isoC7_eval]
  have hb : buildTour2 mqC7 [0, 1, 2, 4] [3] 5 = buildTour2 mzC7 [0, 1, 2, 4] [3] 5 :=
    buildTour2_map (Int.castRingHom ℚ) intCastQ_strictMono mzC7 [0, 1, 2, 4] [3] 5
  rw [hb]
  decide

theorem constructC7_real :
    construct2 (fun i j => ((mzC7 i j : ℤ) : ℝ)) 5 = [0, 2, 3, 1, 4] := by
  have hd : (fun i j => ((mzC7 i j : ℤ) : ℝ)) = (fun i j => ((mqC7 i j : ℚ) : ℝ)) :=
    funext fun i => funext fun j => by rw [mqC7, Rat.cast_intCast]
  rw [hd]
  have h2 : construct2 (fun i j => ((mqC7 i j : ℚ) : ℝ)) 5 = construct2 mqC7 5 :=
    construct2_map (Rat.castHom ℝ) ratCastR_strictMono mqC7 5
  rw [h2, constructC7_rat]

/-! ## Evaluation of the pipeline on the C5 instance -/

theorem remC5_eval : remainingIndices3 mqC5 6 = [0, 1, 2, 3, 4, 5] := by
  show remainingIndices3 (fun a b => ((mzC5 a b : ℤ) : ℚ)) 6 = [0, 1, 2, 3, 4, 5]
  rw [remaining3_int mzC5 6 (by norm_num)]
  decide

theorem isoC5_eval : isolatedIndices3 mqC5 6 = [] := by
  show isolatedIndices3 (fun a b => ((mzC5 a b : ℤ) : ℚ)) 6 = []
  rw [isolated3_int mzC5 6 (by norm_num)]
  decide

theorem coreResetC5 : coreReset3 mqC5 6 = [0, 1, 2, 3, 4, 5] := by
  rw [coreReset3, remC5_eval]
  decide

theorem isoResetC5 : isoReset3 mqC5 6 = [] := by
  rw [isoReset3, remC5_eval, isoC5_eval]
  decide

theorem constructC5_rat : construct3 mqC5 6 = [0, 3, 4, 1, 2, 5] := by
  rw [construct3, coreResetC5, isoResetC5]
  have hb : buildTour3 mqC5 [0, 1, 2, 3, 4, 5] [] = buildTour3 mzC5 [0, 1, 2, 3, 4, 5] [] :=
    buildTour3_map (Int.castRingHom ℚ) intCastQ_strictMono mzC5 [0, 1, 2, 3, 4, 5] []
  rw [hb]
  decide

theorem constructC5_real :
    construct3 (fun i j => ((mzC5 i j : ℤ) : ℝ)) 6 = [0, 3, 4, 1, 2, 5] := by
  have hd : (fun i j => ((mzC5 i j : ℤ) : ℝ)) = (fun i j => ((mqC5 i j : ℚ) : ℝ)) :=
    funext fun i => funext fun j => by rw [mqC5, Rat.cast_intCast]
  rw [hd]
  have h2 : construct3 (fun i j => ((mqC5 i j : ℚ) : ℝ)) 6 = construct3 mqC5 6 :=
    construct3_map (Rat.castHom ℝ) ratCastR_strictMono mqC5 6
  rw [h2, constructC5_rat]

/-! ## Evaluation of the pipeline on the C8 instance -/

theorem remC8_eval : remainingIndices3 mqC8 7 = [0, 1, 3, 5] := by
  show remainingIndices3 (fun a b => ((mzC8 a b : ℤ) : ℚ)) 7 = [0, 1, 3, 5]
  rw [remaining3_int mzC8 7 (by norm_num)]
  decide

theorem isoC8_eval : isolatedIndices3 mqC8 7 = [2, 4, 6] := by
  show isolatedIndices3 (fun a b => ((mzC8 a b : ℤ) : ℚ)) 7 = [2, 4, 6]
  rw [isolated3_int mzC8 7 (by norm_num)]
  decide

theorem coreResetC8 : coreReset3 mqC8 7 = [0, 1, 3, 5] := by
  rw [coreReset3, remC8_eval]
  decide

theorem isoResetC8 : isoReset3 mqC8 7 = [2, 4, 6] := by
  rw [isoReset3, remC8_eval, isoC8_eval]
  decide

theorem constructC8_rat : construct3 mqC8 7 = [0, 2, 6, 5, 3, 1, 4] := by
  rw [construct3, coreResetC8, isoResetC8]
  have hb : buildTour3 mqC8 [0, 1, 3, 5] [2, 4, 6]
      = buildTour3 mzC8 [0, 1, 3, 5] [2, 4, 6] :=
    buildTour3_map (Int.castRingHom ℚ) intCastQ_strictMono mzC8 [0, 1, 3, 5] [2, 4, 6]
  rw [hb]
  decide

theorem constructC8_real :
    construct3 (fun i j => ((mzC8 i j : ℤ) : ℝ)) 7 = [0, 2, 6, 5, 3, 1, 4] := by
  have hd : (fun i j => ((mzC8 i j : ℤ) : ℝ)) = (fun i j => ((mqC8 i j : ℚ) : ℝ)) :=
    funext fun i => funext fun j => by rw [mqC8, Rat.cast_intCast]
  rw [hd]
  have h2 : construct3 (fun i j => ((mqC8 i j : ℚ) : ℝ)) 7 = construct3 mqC8 7 :=
    construct3_map (Rat.castHom ℝ) ratCastR_strictMono mqC8 7
  rw [h2, constructC8_rat]

theorem findImprovingC8_real (t : List ℕ) :
    findImproving (fun i j => ((mzC8 i j : ℤ) : ℝ)) 7 t = findImproving mzC8 7 t :=
  findImproving_map (Int.castRingHom ℝ) intCastR_strictMono mzC8 7 t

theorem apply3C8_real (t : List ℕ) (i j k : ℕ) :
    apply3 (fun i j => ((mzC8 i j : ℤ) : ℝ)) 7 t i j k = apply3 mzC8 7 t i j k :=
  apply3_map (Int.castRingHom ℝ) intCastR_strictMono mzC8 7 t i j k

theorem threeOptIter_mem_cycleC8 : ∀ (fuel : ℕ) (t : List ℕ),
    t ∈ [[0, 2, 6, 5, 3, 1, 4], [0, 5, 3, 1, 6, 2, 4],
      [0, 1, 6, 5, 3, 2, 4], [0, 5, 3, 2, 6, 1, 4]] →
    threeOptIter (fun i j => ((mzC8 i j : ℤ) : ℝ)) 7 fuel t
      ∈ [[0, 2, 6, 5, 3, 1, 4], [0, 5, 3, 1, 6, 2, 4],
        [0, 1, 6, 5, 3, 2, 4], [0, 5, 3, 2, 6, 1, 4]] := by
  intro fuel
  induction fuel with
  | zero => exact fun t ht => ht
  | succ fu ih =>
      intro t ht
      simp only [List.mem_cons, List.not_mem_nil, or_false] at ht
      rcases ht with h | h | h | h <;> subst h
      · have e1 : findImproving (fun i j => ((mzC8 i j : ℤ) : ℝ)) 7
            [0, 2, 6, 5, 3, 1, 4] = some (0, 2, 5) := by
          rw [findImprovingC8_real]
          decide
        have e2 : threeOptIter (fun i j => ((mzC8 i j : ℤ) : ℝ)) 7 (fu + 1)
            [0, 2, 6, 5, 3, 1, 4]
            = threeOptIter (fun i j => ((mzC8 i j : ℤ) : ℝ)) 7 fu
              (apply3 (fun i j => ((mzC8 i j : ℤ) : ℝ)) 7 [0, 2, 6, 5, 3, 1, 4] 0 2 5) := by
          rw [threeOptIter, e1]
        have e3 : apply3 (fun i j => ((mzC8 i j : ℤ) : ℝ)) 7 [0, 2, 6, 5, 3, 1, 4] 0 2 5
            = [0, 5, 3, 1, 6, 2, 4] := by
          rw [apply3C8_real]
          decide
        rw [e2, e3]
        exact ih [0, 5, 3, 1, 6, 2, 4] (by decide)
      · have e1 : findImproving (fun i j => ((mzC8 i j : ℤ) : ℝ)) 7
            [0, 5, 3, 1, 6, 2, 4] = some (0, 2, 4) := by
          rw [findImprovingC8_real]
          decide
        have e2 : threeOptIter (fun i j => ((mzC8 i j : ℤ) : ℝ)) 7 (fu + 1)
            [0, 5, 3, 1, 6, 2, 4]
            = threeOptIter (fun i j => ((mzC8 i j : ℤ) : ℝ)) 7 fu
              (apply3 (fun i j => ((mzC8 i j : ℤ) : ℝ)) 7 [0, 5, 3, 1, 6, 2, 4] 0 2 4) := by
          rw [threeOptIter, e1]
        have e3 : apply3 (fun i j => ((mzC8 i j : ℤ) : ℝ)) 7 [0, 5, 3, 1, 6, 2, 4] 0 2 4
            = [0, 1, 6, 5, 3, 2, 4] := by
          rw [apply3C8_real]
          decide
        rw [e2, e3]
        exact ih [0, 1, 6, 5, 3, 2, 4] (by decide)
      · have e1 : findImproving (fun i j => ((mzC8 i j : ℤ) : ℝ)) 7
            [0, 1, 6, 5, 3, 2, 4] = some (0, 2, 5) := by
          rw [findImprovingC8_real]
          decide
        have e2 : threeOptIter (fun i j => ((mzC8 i j : ℤ) : ℝ)) 7 (fu + 1)
            [0, 1, 6, 5, 3, 2, 4]
            = threeOptIter (fun i j => ((mzC8 i j : ℤ) : ℝ)) 7 fu
              (apply3 (fun i j => ((mzC8 i j : ℤ) : ℝ)) 7 [0, 1, 6, 5, 3, 2, 4] 0 2 5) := by
          rw [threeOptIter, e1]
        have e3 : apply3 (fun i j => ((mzC8 i j : ℤ) : ℝ)) 7 [0, 1, 6, 5, 3, 2, 4] 0 2 5
            = [0, 5, 3, 2, 6, 1, 4] := by
          rw [apply3C8_real]
          decide
        rw [e2, e3]
        exact ih [0, 5, 3, 2, 6, 1, 4] (by decide)
      · have e1 : findImproving (fun i j => ((mzC8 i j : ℤ) : ℝ)) 7
            [0, 5, 3, 2, 6, 1, 4] = some (0, 2, 4) := by
          rw [findImprovingC8_real]
          decide
        have e2 : threeOptIter (fun i j => ((mzC8 i j : ℤ) : ℝ)) 7 (fu + 1)
            [0, 5, 3, 2, 6, 1, 4]
            = threeOptIter (fun i j => ((mzC8 i j : ℤ) : ℝ)) 7 fu
              (apply3 (fun i j => ((mzC8 i j : ℤ) : ℝ)) 7 [0, 5, 3, 2, 6, 1, 4] 0 2 4) := by
          rw [threeOptIter, e1]
        have e3 : apply3 (fun i j => ((mzC8 i j : ℤ) : ℝ)) 7 [0, 5, 3, 2, 6, 1, 4] 0 2 4
            = [0, 2, 6, 5, 3, 1, 4] := by
          rw [apply3C8_real]
          decide
        rw [e2, e3]
        exact ih [0, 2, 6, 5, 3, 1, 4] (by decide)

/-- C7 counterexample: on the five planar points of `citiesC7` (whose pairwise
distances are all integers) the cheapest-insertion construction of `solve.py`
returns a strictly longer tour than the identity order, refuting the claimed
inequality `construction ≤ identity`. -/
theorem C7_identity_beats_construction :
    tourLength (fun i j => Real.sqrt (sqDist citiesC7 i j)) (List.range 5)
      < tourLength (fun i j => Real.sqrt (sqDist citiesC7 i j))
        (construct2 (fun i j => Real.sqrt (sqDist citiesC7 i j)) 5) := by
  have hdz : (fun i j => Real.sqrt (sqDist citiesC7 i j))
      = (fun i j => ((mzC7 i j : ℤ) : ℝ)) :=
    funext fun i => funext fun j => dC7_eval i j
  rw [hdz, constructC7_real]
  have h1 : tourLength (fun i j => ((mzC7 i j : ℤ) : ℝ)) (List.range 5)
      = ((tourLength mzC7 (List.range 5) : ℤ) : ℝ) :=
    tourLength_map (Int.castRingHom ℝ) mzC7 (List.range 5)
  have h2 : tourLength (fun i j => ((mzC7 i j : ℤ) : ℝ)) [0, 2, 3, 1, 4]
      = ((tourLength mzC7 [0, 2, 3, 1, 4] : ℤ) : ℝ) :=
    tourLength_map (Int.castRingHom ℝ) mzC7 [0, 2, 3, 1, 4]
  rw [h1, h2]
  exact_mod_cast
    (by decide : tourLength mzC7 (List.range 5) < tourLength mzC7 [0, 2, 3, 1, 4])

/-- C7 (amended): over a Euclidean distance matrix and a non-empty input, the
2-opt refinement of `solve.py` never lengthens the constructed tour:
`tourLength (solve) ≤ tourLength (construction)`.  The second claimed
inequality, `construction ≤ identity order`, is false
(`C7_identity_beats_construction`). -/
theorem C7_refinement_le_construction (cities : List (ℝ × ℝ)) (d : ℕ → ℕ → ℝ)
    (hd : EuclidOf cities d) (N : ℕ) (hN : N ≠ 0) :
    tourLength d (solve2 d N) ≤ tourLength d (construct2 d N) :=
  solve2_le_construct d (euclidOf_symm cities d hd) N hN

/-- C7 witness: the amended inequality at the concrete five-point instance. -/
theorem C7_refinement_le_construction_witness :
    tourLength (fun i j => Real.sqrt (sqDist citiesC7 i j))
        (solve2 (fun i j => Real.sqrt (sqDist citiesC7 i j)) 5)
      ≤ tourLength (fun i j => Real.sqrt (sqDist citiesC7 i j))
        (construct2 (fun i j => Real.sqrt (sqDist citiesC7 i j)) 5) :=
  C7_refinement_le_construction citiesC7
    (fun i j => Real.sqrt (sqDist citiesC7 i j)) (fun i j => rfl) 5 (by norm_num)

/-- C5: refuted on the six planar points of `citiesC5`: the code reaches the
tour `[0,3,4,1,2,5]`, where the triple scan selects the cut `(0,2,4)` with
`best8 < d0`; the applied reconnection (the `d7` branch, whose cost formula
is swapped with `d6` in `solves3.py` lines 95-96) produces `[0,1,2,4,3,5]`,
whose length is NOT `old - d0 + best8` and is strictly LARGER than the old
length. -/
theorem C5_threeOpt_move_increases_length :
    construct3 (fun i j => Real.sqrt (sqDist citiesC5 i j)) 6 = [0, 3, 4, 1, 2, 5]
    ∧ findImproving (fun i j => Real.sqrt (sqDist citiesC5 i j)) 6 [0, 3, 4, 1, 2, 5]
        = some (0, 2, 4)
    ∧ best8 (fun i j => Real.sqrt (sqDist citiesC5 i j)) 6 [0, 3, 4, 1, 2, 5] 0 2 4
        < d0Of (fun i j => Real.sqrt (sqDist citiesC5 i j)) 6 [0, 3, 4, 1, 2, 5] 0 2 4
    ∧ apply3 (fun i j => Real.sqrt (sqDist citiesC5 i j)) 6 [0, 3, 4, 1, 2, 5] 0 2 4
        = [0, 1, 2, 4, 3, 5]
    ∧ tourLength (fun i j => Real.sqrt (sqDist citiesC5 i j)) [0, 1, 2, 4, 3, 5]
        ≠ tourLength (fun i j => Real.sqrt (sqDist citiesC5 i j)) [0, 3, 4, 1, 2, 5]
          - d0Of (fun i j => Real.sqrt (sqDist citiesC5 i j)) 6 [0, 3, 4, 1, 2, 5] 0 2 4
          + best8 (fun i j => Real.sqrt (sqDist citiesC5 i j)) 6 [0, 3, 4, 1, 2, 5] 0 2 4
    ∧ tourLength (fun i j => Real.sqrt (sqDist citiesC5 i j)) [0, 3, 4, 1, 2, 5]
        < tourLength (fun i j => Real.sqrt (sqDist citiesC5 i j)) [0, 1, 2, 4, 3, 5] := by
  have hdz : (fun i j => Real.sqrt (sqDist citiesC5 i j))
      = (fun i j => ((mzC5 i j : ℤ) : ℝ)) :=
    funext fun i => funext fun j => dC5_eval i j
  rw [hdz]
  have hfi : findImproving (fun i j => ((mzC5 i j : ℤ) : ℝ)) 6 [0, 3, 4, 1, 2, 5]
      = findImproving mzC5 6 [0, 3, 4, 1, 2, 5] :=
    findImproving_map (Int.castRingHom ℝ) intCastR_strictMono mzC5 6 [0, 3, 4, 1, 2, 5]
  have hb8 : best8 (fun i j => ((mzC5 i j : ℤ) : ℝ)) 6 [0, 3, 4, 1, 2, 5] 0 2 4
      = ((best8 mzC5 6 [0, 3, 4, 1, 2, 5] 0 2 4 : ℤ) : ℝ) :=
    best8_map (Int.castRingHom ℝ) intCastR_strictMono mzC5 6 [0, 3, 4, 1, 2, 5] 0 2 4
  have hd0 : d0Of (fun i j => ((mzC5 i j : ℤ) : ℝ)) 6 [0, 3, 4, 1, 2, 5] 0 2 4
      = ((d0Of mzC5 6 [0, 3, 4, 1, 2, 5] 0 2 4 : ℤ) : ℝ) :=
    d0Of_map (Int.castRingHom ℝ) mzC5 6 [0, 3, 4, 1, 2, 5] 0 2 4
  have hap : apply3 (fun i j => ((mzC5 i j : ℤ) : ℝ)) 6 [0, 3, 4, 1, 2, 5] 0 2 4
      = apply3 mzC5 6 [0, 3, 4, 1, 2, 5] 0 2 4 :=
    apply3_map (Int.castRingHom ℝ) intCastR_strictMono mzC5 6 [0, 3, 4, 1, 2, 5] 0 2 4
  have hl1 : tourLength (fun i j => ((mzC5 i j : ℤ) : ℝ)) [0, 3, 4, 1, 2, 5]
      = ((tourLength mzC5 [0, 3, 4, 1, 2, 5] : ℤ) : ℝ) :=
    tourLength_map (Int.castRingHom ℝ) mzC5 [0, 3, 4, 1, 2, 5]
  have hl2 : tourLength (fun i j => ((mzC5 i j : ℤ) : ℝ)) [0, 1, 2, 4, 3, 5]
      = ((tourLength mzC5 [0, 1, 2, 4, 3, 5] : ℤ) : ℝ) :=
    tourLength_map (Int.castRingHom ℝ) mzC5 [0, 1, 2, 4, 3, 5]
  refine ⟨constructC5_real, ?_, ?_, ?_, ?_, ?_⟩
  · rw [hfi]
    decide
  · rw [hb8, hd0]
    exact_mod_cast (by decide : best8 mzC5 6 [0, 3, 4, 1, 2, 5] 0 2 4
      < d0Of mzC5 6 [0, 3, 4, 1, 2, 5] 0 2 4)
  · rw [hap]
    decide
  · rw [hl1, hl2, hb8, hd0]
    exact_mod_cast (by decide : tourLength mzC5 [0, 1, 2, 4, 3, 5]
      ≠ tourLength mzC5 [0, 3, 4, 1, 2, 5] - d0Of mzC5 6 [0, 3, 4, 1, 2, 5] 0 2 4
        + best8 mzC5 6 [0, 3, 4, 1, 2, 5] 0 2 4)
  · rw [hl1, hl2]
    exact_mod_cast (by decide : tourLength mzC5 [0, 3, 4, 1, 2, 5]
      < tourLength mzC5 [0, 1, 2, 4, 3, 5])

/-- C8: refuted for the 3-opt variant, on a genuine planar input: on the
seven cities of `citiesC8` (all pairwise Euclidean distances are integers)
the `while improved` loop of `solves3.py` cycles forever through four tours,
because the swapped `d6`/`d7` cost formulas let an applied move lengthen the
tour.  After any number of applied moves the triple scan still finds an
improving move, so the loop never exits.  (The 2-opt loop of `solve.py` does
terminate: `solve2_sweep_fix`.) -/
theorem C8_threeOpt_never_terminates (fuel : ℕ) :
    (findImproving (fun i j => Real.sqrt (sqDist citiesC8 i j)) 7
      (solve3 (fun i j => Real.sqrt (sqDist citiesC8 i j)) 7 fuel)).isSome = true := by
  have hdz : (fun i j => Real.sqrt (sqDist citiesC8 i j))
      = (fun i j => ((mzC8 i j : ℤ) : ℝ)) :=
    funext fun i => funext fun j => dC8_eval i j
  rw [hdz]
  have h0 : solve3 (fun i j => ((mzC8 i j : ℤ) : ℝ)) 7 fuel
      = threeOptIter (fun i j => ((mzC8 i j : ℤ) : ℝ)) 7 fuel
        (construct3 (fun i j => ((mzC8 i j : ℤ) : ℝ)) 7) := rfl
  rw [h0, constructC8_real]
  have hmem := threeOptIter_mem_cycleC8 fuel [0, 2, 6, 5, 3, 1, 4] (by decide)
  simp only [List.mem_cons, List.not_mem_nil, or_false] at hmem
  rcases hmem with h | h | h | h <;> rw [h, findImprovingC8_real] <;> decide

end TSP
